import Mathlib

/-!
Verification of the IP anonymization pipeline in
src/netlify/functions/ip-anonymizer.mjs.

Strings are modelled as lists of UTF-16 code-unit values (the values
charCodeAt yields).  JavaScript numbers that stay integral are modelled as
Nat with explicit truncation mod 2^32 where the source applies bit
operations; the Number coercion used on IPv4 components and the arithmetic
on its results are modelled as IEEE 754 binary64: the exact mathematical
value of the literal, and of each sum and product, rounded to the nearest
representable double (ties to even, overflow to an infinity, gradual
underflow through the subnormals).  Every double is an exact rational, so
values carry an unnormalised rational representation.  BigInt arithmetic
is modelled as Int.  The module-level factorial memo Map is modelled as an
explicit association list threaded through the computation.
-/

namespace IpAnon

/-- Code-unit list of a string literal, matching what charCodeAt enumerates.
All concrete inputs used below are ASCII. -/
def codes (s : String) : List Nat := s.data.map Char.toNat

/-- Character codes treated as white space by String.prototype.trim and by
Number coercion: the WhiteSpace and LineTerminator code points. -/
def jsIsWS (c : Nat) : Bool :=
  c = 9 || c = 10 || c = 11 || c = 12 || c = 13 || c = 32 || c = 160 ||
  c = 5760 || (8192 ≤ c && c ≤ 8202) || c = 8232 || c = 8233 || c = 8239 ||
  c = 8287 || c = 12288 || c = 65279

/-- String.prototype.trim: drop white space from both ends. -/
def jsTrim (l : List Nat) : List Nat :=
  ((l.dropWhile jsIsWS).reverse.dropWhile jsIsWS).reverse

/-- Model of the replace call over the anchored global pattern: it deletes
one leading open bracket (code 91) and one trailing close bracket (code 93)
from the original string; the anchors keep the global flag from deleting
anything else. -/
def stripBrackets (l : List Nat) : List Nat :=
  let l1 := if l.head? = some 91 then l.tail else l
  if l1.getLast? = some 93 then l1.dropLast else l1

/-- FNV-1a 32-bit over the code units: h starts at 2166136261, each step
xors the code in and multiplies by 16777619 through Math.imul followed by
an unsigned shift, i.e. multiplication reduced mod 2^32. -/
def fnv1a32 (l : List Nat) : Nat :=
  l.foldl (fun h c => ((h ^^^ c) * 16777619) % 4294967296) 2166136261

/-- An exact rational num/den with positive denominator, kept unnormalised
so that kernel evaluation never needs a gcd.  Every value the Number
grammar denotes is of this shape. -/
structure QVal where
  num : Int
  den : Nat
deriving DecidableEq, Repr

def qOfNat (n : Nat) : QVal := ⟨n, 1⟩

def qNeg (q : QVal) : QVal := ⟨-q.num, q.den⟩

def qAdd (a b : QVal) : QVal :=
  ⟨a.num * (b.den : Int) + b.num * (a.den : Int), a.den * b.den⟩

def qMul (a b : QVal) : QVal := ⟨a.num * b.num, a.den * b.den⟩

/-- Multiply by an integer power of ten. -/
def qMulPow10 (q : QVal) (e : Int) : QVal :=
  if 0 ≤ e then ⟨q.num * (10 : Int) ^ e.toNat, q.den⟩
  else ⟨q.num, q.den * 10 ^ (-e).toNat⟩

/-- Comparison by cross multiplication (denominators are positive). -/
def qLeB (a b : QVal) : Bool :=
  decide (a.num * (b.den : Int) ≤ b.num * (a.den : Int))

/-- A JavaScript number: NaN, an infinity, or a finite binary64 value.
Every finite double is an exact rational, carried as a QVal. -/
inductive JSNum where
  | nan : JSNum
  | posInf : JSNum
  | negInf : JSNum
  | val : QVal → JSNum
deriving DecidableEq

/-- Floor of log2 with explicit fuel; fuel n suffices for input n. -/
def log2Fuel : Nat → Nat → Nat
  | 0, _ => 0
  | f + 1, n => if 2 ≤ n then log2Fuel f (n / 2) + 1 else 0

def natLog2 (n : Nat) : Nat := log2Fuel n n

/-- Floor of log2 of the positive rational a / b. -/
def ratLog2 (a b : Nat) : Int :=
  let d : Int := (natLog2 a : Int) - (natLog2 b : Int)
  if 0 ≤ d then (if b * 2 ^ d.toNat ≤ a then d else d - 1)
  else (if b ≤ a * 2 ^ (-d).toNat then d else d - 1)

/-- Round the nonnegative rational a / b to the nearest binary64 magnitude
(ties to even): none on overflow to infinity, otherwise a pair (n, e) whose
value is n * 2^e.  The exponent of the ulp grid is floor(log2) - 52, held
at -1074 in the subnormal range; the scaled value is rounded to the nearest
integer, a carry to 2^53 moves up one exponent, and any result beyond the
largest finite exponent 971 overflows. -/
def roundMag (a b : Nat) : Option (Nat × Int) :=
  if a = 0 then some (0, 0)
  else
    let e : Int := max (ratLog2 a b - 52) (-1074)
    let num := if 0 ≤ e then a else a * 2 ^ (-e).toNat
    let den := if 0 ≤ e then b * 2 ^ e.toNat else b
    let n0 := num / den
    let r := num % den
    let n :=
      if 2 * r < den then n0
      else if den < 2 * r then n0 + 1
      else if n0 % 2 = 0 then n0 else n0 + 1
    let p : Nat × Int := if n = 2 ^ 53 then (2 ^ 52, e + 1) else (n, e)
    if 971 < p.2 then none else some p

/-- Round an exact rational to the binary64 double nearest to it, as its
exact rational value; overflow gives the correctly signed infinity. -/
def roundQ (q : QVal) : JSNum :=
  if q.den = 0 then JSNum.nan
  else
    match roundMag q.num.natAbs q.den with
    | none => if q.num < 0 then JSNum.negInf else JSNum.posInf
    | some (n, e) =>
      let mag : QVal :=
        if 0 ≤ e then ⟨(n * 2 ^ e.toNat : Nat), 1⟩
        else ⟨(n : Nat), 2 ^ (-e).toNat⟩
      JSNum.val (if q.num < 0 then qNeg mag else mag)

/-- Round a finite value to a double; NaN and infinities pass through. -/
def roundJS : JSNum → JSNum
  | JSNum.val q => roundQ q
  | x => x

/-- IEEE double addition: the exact sum rounded; NaN propagates, opposite
infinities give NaN, an infinity absorbs any finite operand. -/
def dAdd : JSNum → JSNum → JSNum
  | JSNum.nan, _ => JSNum.nan
  | _, JSNum.nan => JSNum.nan
  | JSNum.posInf, JSNum.negInf => JSNum.nan
  | JSNum.negInf, JSNum.posInf => JSNum.nan
  | JSNum.posInf, _ => JSNum.posInf
  | _, JSNum.posInf => JSNum.posInf
  | JSNum.negInf, _ => JSNum.negInf
  | _, JSNum.negInf => JSNum.negInf
  | JSNum.val a, JSNum.val b => roundQ (qAdd a b)

/-- IEEE double multiplication: the exact product rounded; NaN propagates,
infinity times zero is NaN, otherwise infinities carry the product sign. -/
def dMul : JSNum → JSNum → JSNum
  | JSNum.nan, _ => JSNum.nan
  | _, JSNum.nan => JSNum.nan
  | JSNum.posInf, JSNum.posInf => JSNum.posInf
  | JSNum.posInf, JSNum.negInf => JSNum.negInf
  | JSNum.negInf, JSNum.posInf => JSNum.negInf
  | JSNum.negInf, JSNum.negInf => JSNum.posInf
  | JSNum.posInf, JSNum.val q =>
    if q.num = 0 then JSNum.nan
    else if 0 < q.num then JSNum.posInf else JSNum.negInf
  | JSNum.val q, JSNum.posInf =>
    if q.num = 0 then JSNum.nan
    else if 0 < q.num then JSNum.posInf else JSNum.negInf
  | JSNum.negInf, JSNum.val q =>
    if q.num = 0 then JSNum.nan
    else if 0 < q.num then JSNum.negInf else JSNum.posInf
  | JSNum.val q, JSNum.negInf =>
    if q.num = 0 then JSNum.nan
    else if 0 < q.num then JSNum.negInf else JSNum.posInf
  | JSNum.val a, JSNum.val b => roundQ (qMul a b)

def isDigit (c : Nat) : Bool := 48 ≤ c && c ≤ 57

def isHexDigit (c : Nat) : Bool :=
  isDigit c || (97 ≤ c && c ≤ 102) || (65 ≤ c && c ≤ 70)

/-- Numeric value of a digit code (decimal 0-9, upper or lower hex letter). -/
def digitVal (c : Nat) : Nat :=
  if c ≤ 57 then c - 48 else if c ≤ 70 then c - 55 else c - 87

def digitsToNat (base : Nat) (l : List Nat) : Nat :=
  l.foldl (fun a c => a * base + digitVal c) 0

/-- ExponentPart of the StrDecimalLiteral grammar, or the empty remainder.
none means the remainder does not parse (the whole literal is NaN). -/
def parseExpPart (l : List Nat) : Option Int :=
  match l with
  | [] => some 0
  | c :: rest =>
    if c = 101 || c = 69 then
      match rest with
      | 43 :: ds =>
        if ds ≠ [] && ds.all isDigit then some (digitsToNat 10 ds) else none
      | 45 :: ds =>
        if ds ≠ [] && ds.all isDigit then some (-(digitsToNat 10 ds : Int))
        else none
      | ds =>
        if ds ≠ [] && ds.all isDigit then some (digitsToNat 10 ds) else none
    else none

/-- Unsigned decimal part of StrDecimalLiteral: DecimalDigits, optionally a
dot with further digits, optionally an exponent; at least one digit must be
present and the whole remainder must be consumed. -/
def parseDecBody (l : List Nat) : Option QVal :=
  let intPart := l.takeWhile isDigit
  let rest1 := l.dropWhile isDigit
  match rest1 with
  | 46 :: rest2 =>
    let fracPart := rest2.takeWhile isDigit
    let rest3 := rest2.dropWhile isDigit
    if intPart = [] && fracPart = [] then none
    else
      match parseExpPart rest3 with
      | some e =>
        some (qMulPow10
          (qAdd (qOfNat (digitsToNat 10 intPart))
            ⟨digitsToNat 10 fracPart, 10 ^ fracPart.length⟩) e)
      | none => none
  | _ =>
    if intPart = [] then none
    else
      match parseExpPart rest1 with
      | some e => some (qMulPow10 (qOfNat (digitsToNat 10 intPart)) e)
      | none => none

/-- The exact mathematical value of the StrNumericLiteral grammar (ToNumber
on a string, before rounding): trim white space; empty means 0; a 0x/0o/0b
literal takes no sign; otherwise an optional sign followed by Infinity or a
decimal literal; anything else is NaN. -/
def jsNumberMV (l : List Nat) : JSNum :=
  let t := jsTrim l
  if t = [] then .val (qOfNat 0)
  else if t.take 2 = [48, 120] || t.take 2 = [48, 88] then
    let ds := t.drop 2
    if ds ≠ [] && ds.all isHexDigit then .val (qOfNat (digitsToNat 16 ds))
    else .nan
  else if t.take 2 = [48, 111] || t.take 2 = [48, 79] then
    let ds := t.drop 2
    if ds ≠ [] && ds.all (fun c => 48 ≤ c && c ≤ 55) then
      .val (qOfNat (digitsToNat 8 ds))
    else .nan
  else if t.take 2 = [48, 98] || t.take 2 = [48, 66] then
    let ds := t.drop 2
    if ds ≠ [] && ds.all (fun c => c = 48 || c = 49) then
      .val (qOfNat (digitsToNat 2 ds))
    else .nan
  else
    let signNeg : Bool := t.head? = some 45
    let body := if t.head? = some 43 || t.head? = some 45 then t.tail else t
    if body = [73, 110, 102, 105, 110, 105, 116, 121] then
      if signNeg then .negInf else .posInf
    else
      match parseDecBody body with
      | some q => .val (if signNeg then qNeg q else q)
      | none => .nan

/-- The Number coercion of a string: the exact mathematical value of the
literal, rounded to the nearest binary64 double with ties to even — the
RoundMVResult step of StringToNumber, as every major engine computes it. -/
def jsNumber (l : List Nat) : JSNum := roundJS (jsNumberMV l)

/-- The guard n greater-equal 0 and n less-equal 255 of the source: false on
NaN (both comparisons fail) and on infinities. -/
def jsInRange255 (x : JSNum) : Bool :=
  match x with
  | .val q => qLeB (qOfNat 0) q && qLeB q (qOfNat 255)
  | _ => false

/-- ToUint32, the unsigned right shift by 0, on a finite value: truncate
toward zero, then reduce mod 2^32 into the interval from 0 to 2^32 - 1. -/
def jsToUint32 (q : QVal) : Nat := ((q.num.tdiv q.den) % 4294967296).toNat

/-- ToUint32 on a number: NaN and the infinities give 0. -/
def jsToUint32N : JSNum → Nat
  | JSNum.val q => jsToUint32 q
  | _ => 0

/-- Body of ipToSeed on the stripped and trimmed string: if a dot is
present, coerce the dot-separated components with Number and pack them
big-endian in double arithmetic when there are exactly four, each in the
closed interval 0 to 255 (the literals 16777216, 65536 and 256 are exact
doubles); otherwise hash with FNV-1a. -/
def ipSeedCore (ip : List Nat) : Nat :=
  if 46 ∈ ip then
    let p := (ip.splitOn 46).map jsNumber
    if p.length = 4 ∧ p.all jsInRange255 then
      jsToUint32N (dAdd (dAdd (dAdd
        (dMul (p.getD 0 JSNum.nan) (JSNum.val (qOfNat 16777216)))
        (dMul (p.getD 1 JSNum.nan) (JSNum.val (qOfNat 65536))))
        (dMul (p.getD 2 JSNum.nan) (JSNum.val (qOfNat 256))))
        (p.getD 3 JSNum.nan))
    else fnv1a32 ip
  else fnv1a32 ip

/-- ipToSeed: strip one layer of IPv6 brackets, trim white space, then
derive the seed from the remaining string. -/
def ipToSeed (l : List Nat) : Nat := ipSeedCore (jsTrim (stripBrackets l))

/-- Signed 32-bit reinterpretation of a value reduced mod 2^32: the result
type of Math.imul. -/
def toInt32 (m : Nat) : Int :=
  if m % 4294967296 < 2147483648 then (m % 4294967296 : Int)
  else (m % 4294967296 : Int) - 4294967296

/-- One draw of the closure makeLCG returns: the new state
s = (Math.imul(1664525, s) + 1013904223) with an unsigned shift by 0, i.e.
the signed 32-bit product plus the increment, reduced mod 2^32.  The
intermediate sum stays far below 2^53, so the double arithmetic of the
source is exact. -/
def lcgNext (s : Nat) : Nat :=
  ((toInt32 (1664525 * s) + 1013904223) % 4294967296).toNat

/-- The state makeLCG initialises from its argument: seed with an unsigned
shift by 0. -/
def lcgInit (seed : Nat) : Nat := seed % 4294967296

/-- One side-branch pair of a snowflake arm. -/
structure Branch where
  pos : Nat
  len : Nat
deriving DecidableEq, Repr

instance branchLEDec : DecidableRel (fun (a b : Branch) => a.pos ≤ b.pos) :=
  fun a b => Nat.decLe a.pos b.pos

/-- The record seedToSnowflake returns. -/
structure Snowflake where
  armLength : Nat
  branches : List Branch
  genome : List Nat
deriving DecidableEq

/-- The branch-drawing loop of seedToSnowflake: each iteration draws pos
then len; branches are returned in draw order with the final RNG state. -/
def drawBranchList (armLength : Nat) : Nat → Nat → (List Branch × Nat)
  | 0, s => ([], s)
  | k + 1, s =>
    let s1 := lcgNext s
    let pos := s1 % max 1 (armLength - 1) + 1
    let s2 := lcgNext s1
    let len := s2 % 3 + 1
    let r := drawBranchList armLength k s2
    (⟨pos, len⟩ :: r.1, r.2)

/-- seedToSnowflake: two draws fix armLength and numBranches, then two
draws per branch; branches are sorted ascending by pos.  The sort of the
source is required stable with this consistent comparator, so its result
coincides with any stable sort by pos; insertion sort is used here. -/
def seedToSnowflake (seed : Nat) : Snowflake :=
  let s0 := lcgInit seed
  let s1 := lcgNext s0
  let armLength := s1 % 6 + 2
  let s2 := lcgNext s1
  let numBranches := s2 % 4 + 1
  let bs := (drawBranchList armLength numBranches s2).1
  let branches := List.insertionSort (fun a b => a.pos ≤ b.pos) bs
  { armLength := armLength
    branches := branches
    genome := armLength :: numBranches ::
      branches.flatMap (fun b => [b.pos, b.len]) }

/-- In-place value swap of two array cells through destructuring: both
cells are read, then written exchanged. -/
def listSwap (l : List Nat) (i j : Nat) : List Nat :=
  let a := l.getD i 0
  let b := l.getD j 0
  (l.set i b).set j a

/-- The Fisher-Yates loop of shuffle: i runs from length - 1 down to 1,
j is a fresh draw mod (i + 1). -/
def shuffleAux : List Nat → Nat → Nat → (List Nat × Nat)
  | l, s, 0 => (l, s)
  | l, s, i + 1 =>
    let s1 := lcgNext s
    let j := s1 % (i + 2)
    shuffleAux (listSwap l (i + 1) j) s1 i

def shuffle (l : List Nat) (s : Nat) : List Nat × Nat :=
  shuffleAux l s (l.length - 1)

/-- The cycle walk inside permParity: follow j through the array, marking
visited cells, until a visited cell is reached; len counts the new cells.
The source's while loop needs at most perm.length marking steps on a
permutation (a cycle has at most perm.length elements), so fuel
perm.length reproduces it exactly there; when fuel runs out the current
accumulator is returned, which on a permutation coincides with the value
the exit test would produce. -/
def permParityWalk (perm : List Nat) :
    Nat → List Bool → Nat → Nat → (List Bool × Nat)
  | 0, vis, _, len => (vis, len)
  | fuel + 1, vis, j, len =>
    if vis.getD j false then (vis, len)
    else permParityWalk perm fuel (vis.set j true) (perm.getD j 0) (len + 1)

/-- permParity: count cycles of even length in the cycle decomposition,
mod 2.  The outer loop scans start indices; a start already visited is
skipped, otherwise its cycle is walked and counted when its length is
even. -/
def permParity (perm : List Nat) : Nat :=
  let n := perm.length
  (((List.range n).foldl (fun st i =>
      if st.1.getD i false then st
      else
        let w := permParityWalk perm n st.1 i 0
        (w.1, if w.2 % 2 = 0 then st.2 + 1 else st.2))
    (List.replicate n false, 0)).2) % 2

/-- The quadruple snowflakeToRubiksCube returns. -/
structure CubeState where
  corners : List Nat
  co : List Nat
  edges : List Nat
  eo : List Nat
deriving DecidableEq

/-- The orientation-drawing loops: count fresh draws, each reduced mod m,
in draw order, with the final RNG state. -/
def drawOrients (m : Nat) : Nat → Nat → (List Nat × Nat)
  | 0, s => ([], s)
  | k + 1, s =>
    let s1 := lcgNext s
    let r := drawOrients m k s1
    (s1 % m :: r.1, r.2)

/-- The genome fold deriving the cube seed: h starts at 0xdeadbeef and each
step is Math.imul(h, 31) + v with an unsigned shift by 0. -/
def cubeSeedOf (genome : List Nat) : Nat :=
  genome.foldl (fun h v => ((toInt32 (h * 31) + v) % 4294967296).toNat)
    0xdeadbeef

/-- Stage one of snowflakeToRubiksCube: the corner shuffle, from the RNG
seeded with the genome hash; seven draws. -/
def cubeCorners (sf : Snowflake) : List Nat × Nat :=
  shuffle (List.range 8) (lcgInit (cubeSeedOf sf.genome))

/-- Stage two: the seven free corner orientations, continuing the same
RNG stream. -/
def cubeCO (sf : Snowflake) : List Nat × Nat :=
  drawOrients 3 7 (cubeCorners sf).2

/-- Stage three: the edge shuffle before parity repair; eleven draws. -/
def cubeEdgesPre (sf : Snowflake) : List Nat × Nat :=
  shuffle (List.range 12) (cubeCO sf).2

/-- Stage four: parity repair — when the corner and edge permutation
parities sum odd, the last two edges are swapped; no draws. -/
def cubeEdges (sf : Snowflake) : List Nat :=
  if (permParity (cubeCorners sf).1 + permParity (cubeEdgesPre sf).1) % 2
      ≠ 0 then
    listSwap (cubeEdgesPre sf).1 10 11
  else (cubeEdgesPre sf).1

/-- Stage five: the eleven free edge orientations. -/
def cubeEO (sf : Snowflake) : List Nat × Nat :=
  drawOrients 2 11 (cubeEdgesPre sf).2

/-- snowflakeToRubiksCube: hash the genome into a seed, shuffle the eight
corners, draw seven corner orientations and force the eighth, shuffle the
twelve edges, repair combined permutation parity by swapping the last two
edges when odd, draw eleven edge orientations and force the twelfth.  The
stages above thread one RNG stream in the source's draw order. -/
def snowflakeToRubiksCube (sf : Snowflake) : CubeState :=
  { corners := (cubeCorners sf).1
    co := (cubeCO sf).1 ++ [(3 - (cubeCO sf).1.sum % 3) % 3]
    edges := cubeEdges sf
    eo := (cubeEO sf).1 ++ [(cubeEO sf).1.sum % 2] }

/-- Association-list model of the module-level Map the memoised factorial
uses; insertion prepends, lookup takes the most recent binding. -/
abbrev FactCache := List (Nat × Nat)

def cacheLookup (c : FactCache) (n : Nat) : Option Nat :=
  match c with
  | [] => none
  | (k, v) :: rest => if k = n then some v else cacheLookup rest n

/-- The initial content of the module-level cache: 0 and 1 map to 1. -/
def initFactCache : FactCache := [(0, 1), (1, 1)]

/-- The memoised factorial: look the key up, otherwise recurse on the
predecessor and record the product.  The source initialises the cache with
keys 0 and 1 and only ever adds entries, so the recursion always bottoms
out on a hit; the base answer for a missing key 0 is unreachable in the
program and chosen as the factorial to keep the model total. -/
def factC : Nat → FactCache → (Nat × FactCache)
  | n, c =>
    match cacheLookup c n with
    | some v => (v, c)
    | none =>
      match n with
      | 0 => (1, (0, 1) :: c)
      | m + 1 =>
        let r := factC m c
        ((m + 1) * r.1, (m + 1, (m + 1) * r.1) :: r.2)

/-- Array.prototype.indexOf: index of the first occurrence, -1 when
absent. -/
def jsIndexOf (l : List Nat) (v : Nat) : Int :=
  if v ∈ l then (l.indexOf v : Int) else -1

/-- splice(p, 1): remove one element at p, counting from the end when p is
negative and clamping into the array. -/
def jsSpliceRemove1 (l : List Nat) (p : Int) : List Nat :=
  l.eraseIdx (if p < 0 then ((l.length : Int) + p).toNat else p.toNat)

/-- The loop of lehmer: at each position the rank of the current element
inside the shrinking avail list is weighted by the factorial of the number
of remaining positions; the element is then removed from avail. -/
def lehmerAux : List Nat → List Nat → Int → FactCache → (Int × FactCache)
  | [], _, idx, c => (idx, c)
  | x :: rest, avail, idx, c =>
    let p := jsIndexOf avail x
    let f := factC rest.length c
    lehmerAux rest (jsSpliceRemove1 avail p) (idx + p * (f.1 : Int)) f.2

/-- lehmer with the cache threaded: avail starts as the identity list of
the permutation's length. -/
def lehmerC (perm : List Nat) (c : FactCache) : (Int × FactCache) :=
  lehmerAux perm (List.range perm.length) 0 c

/-- lehmer as the program computes it starting from the initial module
cache (its value does not depend on the cache contents, proved below). -/
def lehmer (perm : List Nat) : Int := (lehmerC perm initFactCache).1

/-- Corner orientation index: the first seven entries as a base-3 numeral,
most significant first. -/
def coOrientIdx (co : List Nat) : Nat :=
  (co.take 7).foldl (fun a v => a * 3 + v) 0

/-- Edge orientation index: the first eleven entries as a base-2 numeral,
most significant first. -/
def eoOrientIdx (eo : List Nat) : Nat :=
  (eo.take 11).foldl (fun a v => a * 2 + v) 0

/-- cubeStateToNumber with the factorial cache threaded: the two Lehmer
codes and the two orientation numerals packed into one integer. -/
def cubeStateToNumberC (st : CubeState) (c : FactCache) : (Int × FactCache) :=
  let cp := lehmerC st.corners c
  let coIdx := coOrientIdx st.co
  let ep := lehmerC st.edges cp.2
  let eoIdx := eoOrientIdx st.eo
  (((cp.1 * 2187 + (coIdx : Int)) * 479001600 + ep.1) * 2048 + (eoIdx : Int),
    ep.2)

/-- cubeStateToNumber as the program computes it from the initial module
cache. -/
def cubeStateToNumber (st : CubeState) : Int :=
  (cubeStateToNumberC st initFactCache).1

/-- One of the two side-branch directions attached to an arm direction. -/
structure BDir where
  dc : Int
  dr : Int
  ch : Nat
deriving DecidableEq, Repr

/-- One of the six arm directions with its glyph and branch directions. -/
structure Arm where
  dc : Int
  dr : Int
  ch : Nat
  bDirs : List BDir
deriving DecidableEq, Repr

/-- The ARMS table of drawSnowflake; glyphs are stored as character
codes (45 dash, 47 slash, 92 backslash). -/
def ARMS : List Arm :=
  [⟨2, 0, 45, [⟨1, -1, 47⟩, ⟨1, 1, 92⟩]⟩,
   ⟨1, -1, 47, [⟨2, 0, 45⟩, ⟨-1, -1, 92⟩]⟩,
   ⟨-1, -1, 92, [⟨1, -1, 47⟩, ⟨-2, 0, 45⟩]⟩,
   ⟨-2, 0, 45, [⟨-1, -1, 92⟩, ⟨-1, 1, 47⟩]⟩,
   ⟨-1, 1, 47, [⟨-2, 0, 45⟩, ⟨1, 1, 92⟩]⟩,
   ⟨1, 1, 92, [⟨-1, 1, 47⟩, ⟨2, 0, 45⟩]⟩]

/-- Every (row, column) pair drawSnowflake passes to plot.  The source
accumulates r and c by adding the direction at each step; after d steps
along an arm the accumulator is the centre plus d times the direction, and
a branch cell adds bl times the branch direction, which is the closed form
used here.  Branch cells rooted at distance d are emitted for every branch
whose pos equals d, in the source's nesting order. -/
def plottedCells (armLength : Nat) (branches : List Branch) :
    List (Int × Int) :=
  let cx : Int := armLength * 2 + 6
  let cy : Int := armLength + 3
  ARMS.flatMap (fun arm =>
    (List.range armLength).flatMap (fun d0 =>
      let d : Int := (d0 : Int) + 1
      (cy + d * arm.dr, cx + d * arm.dc) ::
        branches.flatMap (fun b =>
          if b.pos = d0 + 1 then
            arm.bDirs.flatMap (fun bd =>
              (List.range b.len).map (fun (bl0 : Nat) =>
                let bl : Int := (bl0 : Int) + 1
                (cy + d * arm.dr + bl * bd.dr,
                 cx + d * arm.dc + bl * bd.dc)))
          else [])))

/-- The record anonymizeIp returns; the unique id is exposed as its decimal
string. -/
structure AnonResult where
  anonymizedId : String
  snowflake : Snowflake
  cubeState : CubeState
deriving DecidableEq

/-- anonymizeIp with the module-level factorial cache threaded: seed,
snowflake, cube state, encoded id. -/
def anonymizeIpC (l : List Nat) (c : FactCache) : (AnonResult × FactCache) :=
  let seed := ipToSeed l
  let sf := seedToSnowflake seed
  let st := snowflakeToRubiksCube sf
  let r := cubeStateToNumberC st c
  ({ anonymizedId := toString r.1, snowflake := sf, cubeState := st }, r.2)

/-- anonymizeIp from the initial module cache. -/
def anonymizeIp (l : List Nat) : AnonResult := (anonymizeIpC l initFactCache).1

/-! ### The spec-side reading of the IPv4 condition, for claim C5 -/

/-- Modelled from the spec: a decimal octet is a nonempty string of decimal
digits whose value is at most 255 (the four dot-separated decimal octets
each in 0..255 of section 4.1). -/
def specDecimalOctet (l : List Nat) : Prop :=
  l ≠ [] ∧ (∀ c ∈ l, isDigit c = true) ∧ digitsToNat 10 l ≤ 255

/-- Modelled from the spec: the string parses as four dot-separated decimal
octets each in 0..255. -/
def specFourOctets (l : List Nat) : Prop :=
  (l.splitOn 46).length = 4 ∧ ∀ part ∈ l.splitOn 46, specDecimalOctet part

instance (l : List Nat) : Decidable (specDecimalOctet l) := by
  unfold specDecimalOctet; infer_instance

instance (l : List Nat) : Decidable (specFourOctets l) := by
  unfold specFourOctets; infer_instance

/-! ### Claim C6: the LCG state transition -/

/-- C6: each draw of the RNG built by makeLCG computes exactly
(1664525 * state + 1013904223) mod 2^32 — the signed 32-bit product of
Math.imul composed with the unsigned shift loses nothing modulo 2^32 — and
returns the new state; seeding with 0 and drawing once yields
1013904223.  Sequence determinism is immediate: the draw is a pure
function of the state. -/
theorem claim_C6 :
    (∀ s : Nat, lcgNext s = (1664525 * s + 1013904223) % 4294967296) ∧
    lcgNext (lcgInit 0) = 1013904223 := by
  constructor
  · intro s
    unfold lcgNext toInt32
    generalize 1664525 * s = a
    split <;> omega
  · decide

/-! ### Claim C10: the dropped orientation digits -/

/-- C10: cubeStateToNumber never reads the eighth corner-orientation entry
or the twelfth edge-orientation entry: two cube states agreeing on corners,
edges, the first seven co entries and the first eleven eo entries encode to
the same id. -/
theorem claim_C10 (st1 st2 : CubeState) (h1 : st1.corners = st2.corners)
    (h2 : st1.edges = st2.edges) (h3 : st1.co.take 7 = st2.co.take 7)
    (h4 : st1.eo.take 11 = st2.eo.take 11) :
    cubeStateToNumber st1 = cubeStateToNumber st2 := by
  unfold cubeStateToNumber cubeStateToNumberC coOrientIdx eoOrientIdx
  rw [h1, h2, h3, h4]

/-- Witness for C10 at two concrete states that differ only in co index 7
and eo index 11. -/
theorem claim_C10_witness :
    cubeStateToNumber
      ⟨List.range 8, [0, 0, 0, 0, 0, 0, 0, 0], List.range 12,
        [0, 0, 0, 0, 0, 0, 0, 0, 0, 0, 0, 0]⟩ =
    cubeStateToNumber
      ⟨List.range 8, [0, 0, 0, 0, 0, 0, 0, 2], List.range 12,
        [0, 0, 0, 0, 0, 0, 0, 0, 0, 0, 0, 1]⟩ :=
  claim_C10 _ _ rfl rfl (by decide) (by decide)

/-! ### Claim C5: the IPv4 packing condition -/

theorem list_length_four {α : Type} (l : List α) (h : l.length = 4) :
    ∃ a b c d, l = [a, b, c, d] := by
  match l, h with
  | [a, b, c, d], _ => exact ⟨a, b, c, d, rfl⟩

set_option maxRecDepth 100000 in
/-- C5 counterexample: the input 1.2.3. (a trailing dot, so not four
decimal octets under the spec's wording) is nevertheless packed — JS
Number coerces the empty component to 0 — instead of being hashed with
FNV-1a as the claim requires for malformed strings. -/
theorem claim_C5_counterexample :
    ¬ specFourOctets (jsTrim (stripBrackets (codes "1.2.3."))) ∧
    46 ∈ jsTrim (stripBrackets (codes "1.2.3.")) ∧
    ipToSeed (codes "1.2.3.") = 16909056 ∧
    ipToSeed (codes "1.2.3.") ≠ fnv1a32 (jsTrim (stripBrackets (codes "1.2.3."))) := by
  decide

/-- The amended characterisation of the seed of a stripped and trimmed
string: packing occurs exactly when a dot is present and the string splits
on dots into exactly four components each of whose binary64 Number values
lies in the closed interval 0 to 255; the packed word is the double
arithmetic of the source followed by ToUint32. -/
def ipSeedCharacterisation (ip : List Nat) : Nat :=
  let ps := (ip.splitOn 46).map jsNumber
  if 46 ∈ ip ∧ ps.length = 4 ∧ (∀ x ∈ ps, jsInRange255 x = true) then
    jsToUint32N (dAdd (dAdd (dAdd
      (dMul (ps.getD 0 JSNum.nan) (JSNum.val (qOfNat 16777216)))
      (dMul (ps.getD 1 JSNum.nan) (JSNum.val (qOfNat 65536))))
      (dMul (ps.getD 2 JSNum.nan) (JSNum.val (qOfNat 256))))
      (ps.getD 3 JSNum.nan))
  else fnv1a32 ip

set_option maxRecDepth 100000 in
/-- C5 (amended): the seed of every string follows the characterisation —
packing exactly when the stripped and trimmed string contains a dot and
splits on dots into exactly four components each of whose binary64 Number
values lies in 0..255, a strictly larger set than the spec's four decimal
octets since Number also accepts the empty component (as 0) and
white-space, hex, exponent and sign forms, and the guard reads the rounded
double of the literal; every other string is hashed with FNV-1a.  The
packing vectors hold: 0.0.0.1 gives seed 1 and 255.255.255.255 gives seed
4294967295. -/
theorem claim_C5 :
    (∀ l : List Nat,
      ipToSeed l = ipSeedCharacterisation (jsTrim (stripBrackets l))) ∧
    ipToSeed (codes "0.0.0.1") = 1 ∧
    ipToSeed (codes "255.255.255.255") = 4294967295 := by
  refine ⟨fun l => ?_, by decide, by decide⟩
  show ipSeedCore (jsTrim (stripBrackets l)) = _
  generalize jsTrim (stripBrackets l) = ip
  unfold ipSeedCore ipSeedCharacterisation
  by_cases hdot : 46 ∈ ip
  · rw [if_pos hdot]
    by_cases hc : ((ip.splitOn 46).map jsNumber).length = 4 ∧
        ((ip.splitOn 46).map jsNumber).all jsInRange255 = true
    · rw [if_pos hc]
      have hcond : 46 ∈ ip ∧ ((ip.splitOn 46).map jsNumber).length = 4 ∧
          ∀ x ∈ (ip.splitOn 46).map jsNumber, jsInRange255 x = true :=
        ⟨hdot, hc.1, List.all_eq_true.mp hc.2⟩
      rw [if_pos hcond]
    · rw [if_neg hc]
      have hcond : ¬ (46 ∈ ip ∧ ((ip.splitOn 46).map jsNumber).length = 4 ∧
          ∀ x ∈ (ip.splitOn 46).map jsNumber, jsInRange255 x = true) :=
        fun hcon => hc ⟨hcon.2.1, List.all_eq_true.mpr hcon.2.2⟩
      rw [if_neg hcond]
  · rw [if_neg hdot]
    have hcond : ¬ (46 ∈ ip ∧ ((ip.splitOn 46).map jsNumber).length = 4 ∧
        ∀ x ∈ (ip.splitOn 46).map jsNumber, jsInRange255 x = true) :=
      fun hcon => hdot hcon.1
    rw [if_neg hcond]

set_option maxRecDepth 100000 in
/-- Boundary fidelity of the double rounding: a final component whose
exact value is within half an ulp of 255 is the double 255.0, so both
these addresses pack to seed 255 — the first from below 255, the second
from above. -/
theorem seed_boundary_vectors :
    ipToSeed (codes "0.0.0.2549999999999999999e-16") = 255 ∧
    ipToSeed (codes "0.0.0.25500000000000000001e-17") = 255 := by
  decide

/-! ### Claim C8: bracket and white-space trimming -/

theorem dropWhile_ws_append (ws l : List Nat)
    (hws : ∀ c ∈ ws, jsIsWS c = true) :
    List.dropWhile jsIsWS (ws ++ l) = List.dropWhile jsIsWS l := by
  induction ws with
  | nil => rfl
  | cons c rest ih =>
    have hc : jsIsWS c = true := hws c (by simp)
    simp only [List.cons_append, List.dropWhile_cons, hc, if_true]
    exact ih (fun d hd => hws d (by simp [hd]))

theorem dropWhile_ws_all (ws : List Nat) (hws : ∀ c ∈ ws, jsIsWS c = true) :
    List.dropWhile jsIsWS ws = [] := by
  have := dropWhile_ws_append ws [] hws
  simpa using this

/-- Padding with white space on either side does not change the trimmed
string. -/
theorem jsTrim_pad (ws1 l ws2 : List Nat)
    (h1 : ∀ c ∈ ws1, jsIsWS c = true) (h2 : ∀ c ∈ ws2, jsIsWS c = true) :
    jsTrim (ws1 ++ l ++ ws2) = jsTrim l := by
  unfold jsTrim
  rw [List.append_assoc, dropWhile_ws_append _ _ h1]
  rw [List.dropWhile_append]
  by_cases he : (List.dropWhile jsIsWS l).isEmpty = true
  · rw [if_pos he]
    rw [List.isEmpty_iff] at he
    rw [he]
    have hsub : ∀ c ∈ (List.dropWhile jsIsWS ws2).reverse, jsIsWS c = true :=
      fun c hc =>
        h2 c ((List.dropWhile_sublist _).mem (List.mem_reverse.mp hc))
    rw [dropWhile_ws_all _ hsub]
    rfl
  · rw [if_neg he]
    rw [List.reverse_append, dropWhile_ws_append _ _
      (fun c hc => h2 c (List.mem_reverse.mp hc))]

theorem stripBrackets_id (l : List Nat) (hh : l.head? ≠ some 91)
    (hl : l.getLast? ≠ some 93) : stripBrackets l = l := by
  unfold stripBrackets
  rw [if_neg hh, if_neg hl]

/-- The head of a white-space-padded string is a white-space code or the
head of the inner string. -/
theorem head?_pad_ne (ws1 l ws2 : List Nat) (v : Nat)
    (h1 : ∀ c ∈ ws1, jsIsWS c = true) (h2 : ∀ c ∈ ws2, jsIsWS c = true)
    (hv : jsIsWS v = false) (hh : l.head? ≠ some v) :
    (ws1 ++ l ++ ws2).head? ≠ some v := by
  cases ws1 with
  | cons w rest =>
    intro hcon
    simp only [List.cons_append, List.head?_cons, Option.some.injEq] at hcon
    have hw := h1 w (by simp)
    rw [hcon] at hw
    exact absurd (hw.symm.trans hv) (by decide)
  | nil =>
    cases l with
    | cons x xs =>
      intro hcon
      simp only [List.nil_append, List.cons_append, List.head?_cons,
        Option.some.injEq] at hcon
      exact hh (by simp [hcon])
    | nil =>
      cases ws2 with
      | nil => simp
      | cons w rest =>
        intro hcon
        simp only [List.nil_append, List.head?_cons,
          Option.some.injEq] at hcon
        have hw := h2 w (by simp)
        rw [hcon] at hw
        exact absurd (hw.symm.trans hv) (by decide)

theorem getLast?_pad_ne (ws1 l ws2 : List Nat) (v : Nat)
    (h1 : ∀ c ∈ ws1, jsIsWS c = true) (h2 : ∀ c ∈ ws2, jsIsWS c = true)
    (hv : jsIsWS v = false) (hl : l.getLast? ≠ some v) :
    (ws1 ++ l ++ ws2).getLast? ≠ some v := by
  rw [← List.head?_reverse] at hl ⊢
  rw [List.reverse_append, List.reverse_append, ← List.append_assoc]
  exact head?_pad_ne ws2.reverse l.reverse ws1.reverse v
    (fun c hc => h2 c (List.mem_reverse.mp hc))
    (fun c hc => h1 c (List.mem_reverse.mp hc)) hv hl

/-- C8 counterexample: white space outside the brackets defeats the
bracket stripping, because the source strips brackets before trimming;
the seed of a space-padded bracketed IPv6 literal differs from the seed of
the bare literal. -/
theorem claim_C8_counterexample :
    ipToSeed (codes " [::1] ") ≠ ipToSeed (codes "::1") ∧
    ipToSeed (codes "[::1]") = ipToSeed (codes "::1") := by
  decide

/-- C8 (amended): for a string that neither starts with an open bracket
nor ends with a close bracket, one layer of enclosing brackets, white
space padding alone, and white space padding inside the brackets all leave
the seed unchanged; white space outside the brackets does not (see the
counterexample), since brackets are stripped before trimming. -/
theorem claim_C8 (l ws1 ws2 : List Nat)
    (h1 : ∀ c ∈ ws1, jsIsWS c = true) (h2 : ∀ c ∈ ws2, jsIsWS c = true)
    (hh : l.head? ≠ some 91) (hl : l.getLast? ≠ some 93) :
    ipToSeed (91 :: (l ++ [93])) = ipToSeed l ∧
    ipToSeed (ws1 ++ l ++ ws2) = ipToSeed l ∧
    ipToSeed (91 :: ((ws1 ++ l ++ ws2) ++ [93])) = ipToSeed l := by
  have hid : stripBrackets l = l := stripBrackets_id l hh hl
  have hbr : ∀ m : List Nat, stripBrackets (91 :: (m ++ [93])) = m := by
    intro m
    unfold stripBrackets
    simp
  refine ⟨?_, ?_, ?_⟩
  · unfold ipToSeed
    rw [hbr, hid]
  · unfold ipToSeed
    rw [hid, stripBrackets_id _ (head?_pad_ne ws1 l ws2 91 h1 h2 (by decide) hh)
      (getLast?_pad_ne ws1 l ws2 93 h1 h2 (by decide) hl)]
    rw [jsTrim_pad ws1 l ws2 h1 h2]
  · unfold ipToSeed
    rw [hbr, hid, jsTrim_pad ws1 l ws2 h1 h2]

/-- Witness for C8 at the bare IPv6 literal ::1 with a space and a tab as
padding. -/
theorem claim_C8_witness :
    ipToSeed (91 :: (codes "::1" ++ [93])) = ipToSeed (codes "::1") ∧
    ipToSeed ([32] ++ codes "::1" ++ [9]) = ipToSeed (codes "::1") :=
  ⟨(claim_C8 (codes "::1") [32] [9] (by decide) (by decide) (by decide)
      (by decide)).1,
   (claim_C8 (codes "::1") [32] [9] (by decide) (by decide) (by decide)
      (by decide)).2.1⟩

/-! ### Claim C9: render bounds -/

/-- Every direction in the ARMS table steps at most one row and two
columns per cell. -/
theorem arms_bounds : ∀ arm ∈ ARMS,
    (-1 : Int) ≤ arm.dr ∧ arm.dr ≤ 1 ∧ (-2 : Int) ≤ arm.dc ∧ arm.dc ≤ 2 ∧
    ∀ bd ∈ arm.bDirs, (-1 : Int) ≤ bd.dr ∧ bd.dr ≤ 1 ∧
      (-2 : Int) ≤ bd.dc ∧ bd.dc ≤ 2 := by
  decide

theorem mul_bounds (k x m : Int) (hk : 0 ≤ k) (hxm : -m ≤ x) (hxM : x ≤ m) :
    -(k * m) ≤ k * x ∧ k * x ≤ k * m := by
  constructor
  · have h := mul_le_mul_of_nonneg_left hxm hk
    rw [mul_neg] at h
    exact h
  · exact mul_le_mul_of_nonneg_left hxM hk

/-- C9: for every genome within the documented ranges — armLength in 2..7,
each branch pos in 1..armLength-1 and len in 1..3 — every coordinate
passed to plot lies strictly inside the grid of height 2(armLength+3)+1
and width 2(2 armLength+6)+1, so the out-of-bounds clipping branch of plot
is never taken; this covers in particular armLength 2 and armLength 7 with
a branch of length 3 rooted at armLength-1. -/
theorem claim_C9 (armLength : Nat) (branches : List Branch)
    (h1 : 2 ≤ armLength) (h2 : armLength ≤ 7)
    (hb : ∀ b ∈ branches,
      1 ≤ b.pos ∧ b.pos ≤ armLength - 1 ∧ 1 ≤ b.len ∧ b.len ≤ 3) :
    ∀ rc ∈ plottedCells armLength branches,
      0 ≤ rc.1 ∧ rc.1 < 2 * ((armLength : Int) + 3) + 1 ∧
      0 ≤ rc.2 ∧ rc.2 < 2 * (2 * (armLength : Int) + 6) + 1 := by
  intro rc hrc
  unfold plottedCells at hrc
  rw [List.mem_flatMap] at hrc
  obtain ⟨arm, harm, hrc⟩ := hrc
  rw [List.mem_flatMap] at hrc
  obtain ⟨d0, hd0, hrc⟩ := hrc
  rw [List.mem_range] at hd0
  obtain ⟨hdr1, hdr2, hdc1, hdc2, hbd⟩ := arms_bounds arm harm
  have hd1 : (0 : Int) ≤ (d0 : Int) + 1 := by omega
  rw [List.mem_cons] at hrc
  rcases hrc with hrc | hrc
  · subst hrc
    have hr := mul_bounds ((d0 : Int) + 1) arm.dr 1 hd1 hdr1 hdr2
    have hc := mul_bounds ((d0 : Int) + 1) arm.dc 2 hd1 hdc1 hdc2
    refine ⟨?_, ?_, ?_, ?_⟩ <;> simp only [] <;> omega
  · rw [List.mem_flatMap] at hrc
    obtain ⟨b, hbm, hrc⟩ := hrc
    obtain ⟨hp1, hp2, hl1, hl2⟩ := hb b hbm
    by_cases hpos : b.pos = d0 + 1
    · rw [if_pos hpos] at hrc
      rw [List.mem_flatMap] at hrc
      obtain ⟨bd, hbdm, hrc⟩ := hrc
      rw [List.mem_map] at hrc
      obtain ⟨bl0, hbl, hrc⟩ := hrc
      rw [List.mem_range] at hbl
      obtain ⟨hbr1, hbr2, hbc1, hbc2⟩ := hbd bd hbdm
      subst hrc
      have hbl1 : (0 : Int) ≤ (bl0 : Int) + 1 := by omega
      have hr := mul_bounds ((d0 : Int) + 1) arm.dr 1 hd1 hdr1 hdr2
      have hc := mul_bounds ((d0 : Int) + 1) arm.dc 2 hd1 hdc1 hdc2
      have hr2 := mul_bounds ((bl0 : Int) + 1) bd.dr 1 hbl1 hbr1 hbr2
      have hc2 := mul_bounds ((bl0 : Int) + 1) bd.dc 2 hbl1 hbc1 hbc2
      refine ⟨?_, ?_, ?_, ?_⟩ <;> simp only [] <;> omega
    · rw [if_neg hpos] at hrc
      exact absurd hrc (List.not_mem_nil rc)

/-- Witness for C9 at the maximal configuration: armLength 7 with one
branch of length 3 rooted at position 6; the first east-arm cell lands at
row 10, column 22 inside the 21 by 41 grid. -/
theorem claim_C9_witness :
    0 ≤ (10 : Int) ∧ (10 : Int) < 2 * ((7 : Int) + 3) + 1 ∧
    0 ≤ (22 : Int) ∧ (22 : Int) < 2 * (2 * (7 : Int) + 6) + 1 :=
  claim_C9 7 [⟨6, 3⟩] (by decide) (by decide) (by decide) (10, 22)
    (by decide)

/-! ### Claim C7: well-formedness of the genome -/

instance : IsTotal Branch (fun a b => a.pos ≤ b.pos) :=
  ⟨fun a b => Nat.le_total a.pos b.pos⟩

instance : IsTrans Branch (fun a b => a.pos ≤ b.pos) :=
  ⟨fun _ _ _ hab hbc => Nat.le_trans hab hbc⟩

theorem drawBranchList_length (aL : Nat) :
    ∀ k s, ((drawBranchList aL k s).1).length = k := by
  intro k
  induction k with
  | zero => intro s; rfl
  | succ m ih => intro s; simp [drawBranchList, ih]

theorem drawBranchList_mem (aL : Nat) (hA : 2 ≤ aL) :
    ∀ k s, ∀ b ∈ (drawBranchList aL k s).1,
      1 ≤ b.pos ∧ b.pos ≤ aL - 1 ∧ 1 ≤ b.len ∧ b.len ≤ 3 := by
  intro k
  induction k with
  | zero => intro s b hb; exact absurd hb (List.not_mem_nil b)
  | succ m ih =>
    intro s b hb
    simp only [drawBranchList, List.mem_cons] at hb
    rcases hb with hb | hb
    · subst hb
      have hmax : max 1 (aL - 1) = aL - 1 := by omega
      have hp := Nat.mod_lt (lcgNext s) (show 0 < max 1 (aL - 1) by omega)
      have hl := Nat.mod_lt (lcgNext (lcgNext s)) (show 0 < 3 by omega)
      simp only []
      omega
    · exact ih (lcgNext (lcgNext s)) b hb

/-- Stability of ordered insertion: the sublist at any fixed pos value
gains the inserted element at the front exactly when its pos matches,
because the insertion point lies after strictly smaller pos values only. -/
theorem filter_orderedInsert (v : Nat) (a : Branch) (l : List Branch) :
    (List.orderedInsert (fun x y => x.pos ≤ y.pos) a l).filter
      (fun b => b.pos == v) =
    if a.pos = v then a :: l.filter (fun b => b.pos == v)
    else l.filter (fun b => b.pos == v) := by
  induction l with
  | nil =>
    by_cases hav : a.pos = v
    · simp [List.orderedInsert, List.filter_cons, hav]
    · simp [List.orderedInsert, List.filter_cons, hav]
  | cons c t ih =>
    show (if a.pos ≤ c.pos then a :: c :: t
      else c :: List.orderedInsert _ a t).filter (fun b => b.pos == v) = _
    by_cases hac : a.pos ≤ c.pos
    · rw [if_pos hac]
      by_cases hav : a.pos = v
      · simp [List.filter_cons, hav]
      · simp [List.filter_cons, hav]
    · rw [if_neg hac]
      rw [List.filter_cons, ih]
      by_cases hav : a.pos = v
      · have hc' : ¬ (c.pos = v) := by omega
        rw [if_pos hav, if_pos hav, List.filter_cons]
        simp [hc']
      · rw [if_neg hav, if_neg hav, List.filter_cons]

/-- Stability of the insertion sort used to model the source's stable
sort: the sublist at any fixed pos value is unchanged. -/
theorem filter_insertionSort (v : Nat) (l : List Branch) :
    (List.insertionSort (fun x y => x.pos ≤ y.pos) l).filter
      (fun b => b.pos == v) = l.filter (fun b => b.pos == v) := by
  induction l with
  | nil => rfl
  | cons a t ih =>
    show (List.orderedInsert _ a (List.insertionSort _ t)).filter _ = _
    rw [filter_orderedInsert, ih]
    by_cases hav : a.pos = v
    · simp [List.filter_cons, hav]
    · simp [List.filter_cons, hav]

/-- The branch list drawn before sorting, in draw order. -/
def drawnBranchesOf (seed : Nat) : List Branch :=
  let s1 := lcgNext (lcgInit seed)
  let s2 := lcgNext s1
  (drawBranchList (s1 % 6 + 2) (s2 % 4 + 1) s2).1

/-- C7: for every seed the genome is well-formed: armLength in 2..7, one
to four branches, each branch pos in 1..armLength-1 and len in 1..3, the
branch list sorted ascending by pos and a stable rearrangement of the
drawn list (ties keep draw order: the sublist at every fixed pos is the
drawn sublist), and the flattened genome is armLength, numBranches and the
pos, len pairs in order. -/
theorem claim_C7 (seed : Nat) :
    2 ≤ (seedToSnowflake seed).armLength ∧
    (seedToSnowflake seed).armLength ≤ 7 ∧
    1 ≤ (seedToSnowflake seed).branches.length ∧
    (seedToSnowflake seed).branches.length ≤ 4 ∧
    (∀ b ∈ (seedToSnowflake seed).branches,
      1 ≤ b.pos ∧ b.pos ≤ (seedToSnowflake seed).armLength - 1 ∧
      1 ≤ b.len ∧ b.len ≤ 3) ∧
    List.Sorted (fun a b : Branch => a.pos ≤ b.pos)
      (seedToSnowflake seed).branches ∧
    ((seedToSnowflake seed).branches).Perm (drawnBranchesOf seed) ∧
    (∀ v : Nat, (seedToSnowflake seed).branches.filter (fun b => b.pos == v)
      = (drawnBranchesOf seed).filter (fun b => b.pos == v)) ∧
    (seedToSnowflake seed).genome =
      (seedToSnowflake seed).armLength ::
        (seedToSnowflake seed).branches.length ::
        (seedToSnowflake seed).branches.flatMap (fun b => [b.pos, b.len]) := by
  have hA : (seedToSnowflake seed).armLength =
      lcgNext (lcgInit seed) % 6 + 2 := rfl
  have hB : (seedToSnowflake seed).branches =
      List.insertionSort (fun a b => a.pos ≤ b.pos) (drawnBranchesOf seed) :=
    rfl
  have hG : (seedToSnowflake seed).genome =
      (lcgNext (lcgInit seed) % 6 + 2) ::
        (lcgNext (lcgNext (lcgInit seed)) % 4 + 1) ::
        (seedToSnowflake seed).branches.flatMap (fun b => [b.pos, b.len]) :=
    rfl
  have hperm : ((seedToSnowflake seed).branches).Perm (drawnBranchesOf seed) := by
    rw [hB]; exact List.perm_insertionSort _ _
  have hlen : (seedToSnowflake seed).branches.length =
      lcgNext (lcgNext (lcgInit seed)) % 4 + 1 := by
    rw [hperm.length_eq]
    exact drawBranchList_length _ _ _
  have h6 := Nat.mod_lt (lcgNext (lcgInit seed)) (show 0 < 6 by omega)
  have h4 := Nat.mod_lt (lcgNext (lcgNext (lcgInit seed)))
    (show 0 < 4 by omega)
  refine ⟨by omega, by omega, by omega, by omega, ?_, ?_, hperm, ?_, ?_⟩
  · intro b hb
    have hb' : b ∈ drawnBranchesOf seed := hperm.mem_iff.mp hb
    have := drawBranchList_mem (lcgNext (lcgInit seed) % 6 + 2) (by omega)
      (lcgNext (lcgNext (lcgInit seed)) % 4 + 1)
      (lcgNext (lcgNext (lcgInit seed))) b hb'
    rw [hA]
    exact this
  · rw [hB]
    exact List.sorted_insertionSort _ _
  · intro v
    rw [hB]
    exact filter_insertionSort v (drawnBranchesOf seed)
  · rw [hG, hlen, hA]

/-! ### The factorial cache -/

/-- The invariant the module-level factorial Map maintains: every stored
binding maps a key to its factorial. -/
def ConsistentFactCache (c : FactCache) : Prop :=
  ∀ p ∈ c, p.2 = Nat.factorial p.1

instance (c : FactCache) : Decidable (ConsistentFactCache c) := by
  unfold ConsistentFactCache; infer_instance

theorem consistent_init : ConsistentFactCache initFactCache := by decide

theorem cacheLookup_mem (c : FactCache) (n v : Nat)
    (h : cacheLookup c n = some v) : (n, v) ∈ c := by
  induction c with
  | nil => exact absurd h (by simp [cacheLookup])
  | cons p rest ih =>
    obtain ⟨k, w⟩ := p
    rw [cacheLookup] at h
    by_cases hk : k = n
    · rw [if_pos hk] at h
      subst hk
      injection h with h
      subst h
      exact List.mem_cons_self _ _
    · rw [if_neg hk] at h
      exact List.mem_cons_of_mem _ (ih h)

/-- On a consistent cache the memoised factorial returns the factorial and
leaves the cache consistent. -/
theorem factC_spec (n : Nat) (c : FactCache) (hc : ConsistentFactCache c) :
    (factC n c).1 = Nat.factorial n ∧ ConsistentFactCache (factC n c).2 := by
  induction n generalizing c with
  | zero =>
    rw [factC]
    cases hl : cacheLookup c 0 with
    | some v =>
      have hv := hc _ (cacheLookup_mem c 0 v hl)
      exact ⟨hv, hc⟩
    | none =>
      refine ⟨rfl, ?_⟩
      intro p hp
      rcases List.mem_cons.mp hp with hp | hp
      · subst hp; rfl
      · exact hc p hp
  | succ m ih =>
    rw [factC]
    cases hl : cacheLookup c (m + 1) with
    | some v =>
      have hv := hc _ (cacheLookup_mem c (m + 1) v hl)
      exact ⟨hv, hc⟩
    | none =>
      obtain ⟨h1, h2⟩ := ih c hc
      constructor
      · show (m + 1) * (factC m c).1 = Nat.factorial (m + 1)
        rw [h1, Nat.factorial_succ]
      · intro p hp
        rcases List.mem_cons.mp hp with hp | hp
        · subst hp
          show (m + 1) * (factC m c).1 = Nat.factorial (m + 1)
          rw [h1, Nat.factorial_succ]
        · exact h2 p hp

/-! ### List swap and shuffle permutation facts -/

theorem cons_getD_set_perm : ∀ (xs : List Nat) (j v : Nat), j < xs.length →
    (xs.getD j 0 :: xs.set j v).Perm (v :: xs) := by
  intro xs
  induction xs with
  | nil => intro j v h; simp at h
  | cons y ys ih =>
    intro j v hj
    cases j with
    | zero => exact List.Perm.swap v y ys
    | succ m =>
      have hm : m < ys.length := by simpa using hj
      show (ys.getD m 0 :: y :: ys.set m v).Perm (v :: y :: ys)
      exact ((List.Perm.swap y (ys.getD m 0) (ys.set m v)).trans
        ((ih m v hm).cons y)).trans (List.Perm.swap v y ys)

theorem set_getD_self : ∀ (l : List Nat) (i : Nat),
    l.set i (l.getD i 0) = l := by
  intro l
  induction l with
  | nil => intro i; rfl
  | cons y ys ih =>
    intro i
    cases i with
    | zero => rfl
    | succ m =>
      show y :: ys.set m (ys.getD m 0) = y :: ys
      rw [ih]

theorem listSwap_length (l : List Nat) (i j : Nat) :
    (listSwap l i j).length = l.length := by
  unfold listSwap
  rw [List.length_set, List.length_set]

theorem listSwap_perm : ∀ (l : List Nat) (i j : Nat), i < l.length →
    j < l.length → (listSwap l i j).Perm l := by
  intro l
  induction l with
  | nil => intro i j hi; simp at hi
  | cons y ys ih =>
    intro i j hi hj
    match i, j with
    | 0, 0 =>
      show ((y :: ys).set 0 y).Perm (y :: ys)
      exact List.Perm.refl _
    | 0, m + 1 =>
      have hm : m < ys.length := by simpa using hj
      exact cons_getD_set_perm ys m y hm
    | k + 1, 0 =>
      have hk : k < ys.length := by simpa using hi
      exact cons_getD_set_perm ys k y hk
    | k + 1, m + 1 =>
      show (y :: listSwap ys k m).Perm (y :: ys)
      exact (ih k m (by simpa using hi) (by simpa using hj)).cons y

theorem shuffleAux_perm : ∀ (i : Nat) (l : List Nat) (s : Nat),
    i < l.length → ((shuffleAux l s i).1).Perm l := by
  intro i
  induction i with
  | zero => intro l s _; exact List.Perm.refl l
  | succ m ih =>
    intro l s hi
    rw [shuffleAux]
    have hj : lcgNext s % (m + 2) < l.length := by
      have := Nat.mod_lt (lcgNext s) (show 0 < m + 2 by omega)
      omega
    have h1 := listSwap_perm l (m + 1) (lcgNext s % (m + 2)) hi hj
    have h2 := ih (listSwap l (m + 1) (lcgNext s % (m + 2))) (lcgNext s)
      (by rw [listSwap_length]; omega)
    exact h2.trans h1

theorem shuffle_perm (l : List Nat) (s : Nat) : ((shuffle l s).1).Perm l := by
  unfold shuffle
  cases l with
  | nil => exact List.Perm.refl _
  | cons y ys =>
    apply shuffleAux_perm
    simp

theorem cube_corners_eq (sf : Snowflake) :
    (snowflakeToRubiksCube sf).corners = (cubeCorners sf).1 := by
  simp only [snowflakeToRubiksCube]

theorem cube_co_eq (sf : Snowflake) :
    (snowflakeToRubiksCube sf).co =
      (cubeCO sf).1 ++ [(3 - (cubeCO sf).1.sum % 3) % 3] := by
  simp only [snowflakeToRubiksCube]

theorem cube_edges_eq (sf : Snowflake) :
    (snowflakeToRubiksCube sf).edges = cubeEdges sf := by
  simp only [snowflakeToRubiksCube]

theorem cube_eo_eq (sf : Snowflake) :
    (snowflakeToRubiksCube sf).eo =
      (cubeEO sf).1 ++ [(cubeEO sf).1.sum % 2] := by
  simp only [snowflakeToRubiksCube]

theorem cubeCorners_perm (sf : Snowflake) :
    ((cubeCorners sf).1).Perm (List.range 8) := shuffle_perm _ _

theorem cubeEdgesPre_perm (sf : Snowflake) :
    ((cubeEdgesPre sf).1).Perm (List.range 12) := shuffle_perm _ _

theorem cubeEdges_perm (sf : Snowflake) :
    (cubeEdges sf).Perm (List.range 12) := by
  unfold cubeEdges
  have h0 := cubeEdgesPre_perm sf
  have hlen : ((cubeEdgesPre sf).1).length = 12 := by
    simpa using h0.length_eq
  split
  · exact (listSwap_perm _ 10 11 (by omega) (by omega)).trans h0
  · exact h0

/-! ### The Lehmer code -/

/-- The value the Lehmer loop computes, in plain natural numbers with the
mathematical factorial: the rank of each element inside the shrinking
avail list, weighted by the factorial of the remaining length. -/
def lehmerNat : List Nat → List Nat → Nat
  | [], _ => 0
  | x :: rest, avail =>
    avail.indexOf x * Nat.factorial rest.length +
      lehmerNat rest (avail.eraseIdx (avail.indexOf x))

theorem erase_eq_eraseIdx_indexOf (l : List Nat) (x : Nat) :
    l.erase x = l.eraseIdx (l.indexOf x) := by
  induction l with
  | nil => rfl
  | cons a t ih =>
    by_cases hax : a = x
    · subst hax
      rw [List.erase_cons_head, List.indexOf_cons_self]
      rfl
    · rw [List.erase_cons_tail (by simpa using hax)]
      have hidx : (a :: t).indexOf x = t.indexOf x + 1 := by
        simp [List.indexOf_cons, hax]
      rw [hidx, ih]
      rfl

/-- The Int-and-cache loop agrees with the plain value whenever every
element is found in avail. -/
theorem lehmerAux_spec : ∀ (perm avail : List Nat) (idx : Int)
    (c : FactCache), perm.Nodup → (∀ x ∈ perm, x ∈ avail) →
    ConsistentFactCache c →
    (lehmerAux perm avail idx c).1 = idx + (lehmerNat perm avail : Int) ∧
    ConsistentFactCache (lehmerAux perm avail idx c).2 := by
  intro perm
  induction perm with
  | nil =>
    intro avail idx c _ _ hc
    exact ⟨by simp [lehmerAux, lehmerNat], hc⟩
  | cons x rest ih =>
    intro avail idx c hnd hsub hc
    have hx : x ∈ avail := hsub x (by simp)
    have hfd := factC_spec rest.length c hc
    have hjs : jsIndexOf avail x = (avail.indexOf x : Int) := by
      rw [jsIndexOf, if_pos hx]
    have hsplice : jsSpliceRemove1 avail (avail.indexOf x : Int) =
        avail.eraseIdx (avail.indexOf x) := by
      rw [jsSpliceRemove1, if_neg (by omega)]
      simp
    have hrest_sub : ∀ y ∈ rest, y ∈ avail.eraseIdx (avail.indexOf x) := by
      intro y hy
      rw [← erase_eq_eraseIdx_indexOf]
      have hyx : y ≠ x := by
        intro h
        subst h
        exact (List.nodup_cons.mp hnd).1 hy
      exact List.mem_erase_of_ne hyx |>.mpr (hsub y (by simp [hy]))
    have := ih (avail.eraseIdx (avail.indexOf x))
      (idx + (avail.indexOf x : Int) * ((factC rest.length c).1 : Int))
      (factC rest.length c).2 (List.nodup_cons.mp hnd).2 hrest_sub hfd.2
    rw [lehmerAux, hjs, hsplice] at *
    refine ⟨?_, this.2⟩
    rw [this.1, hfd.1, lehmerNat]
    push_cast
    ring

theorem lehmer_eq_lehmerNat (n : Nat) (perm : List Nat)
    (h : perm.Perm (List.range n)) (c : FactCache)
    (hc : ConsistentFactCache c) :
    (lehmerC perm c).1 = (lehmerNat perm (List.range n) : Int) ∧
    ConsistentFactCache (lehmerC perm c).2 := by
  have hlen : perm.length = n := by simpa using h.length_eq
  have hnd : perm.Nodup := (h.nodup_iff).mpr (List.nodup_range n)
  have hsub : ∀ x ∈ perm, x ∈ List.range n := fun x hx => h.subset hx
  unfold lehmerC
  rw [hlen]
  have := lehmerAux_spec perm (List.range n) 0 c hnd hsub hc
  exact ⟨by rw [this.1]; simp, this.2⟩

/-- The Lehmer value of an arrangement of avail is below the factorial of
its length. -/
theorem lehmerNat_lt : ∀ (perm avail : List Nat), perm.Perm avail →
    lehmerNat perm avail < Nat.factorial perm.length := by
  intro perm
  induction perm with
  | nil => intro avail _; simp [lehmerNat, Nat.factorial]
  | cons x rest ih =>
    intro avail h
    have hx : x ∈ avail := h.mem_iff.mp (by simp)
    have hrest : rest.Perm (avail.eraseIdx (avail.indexOf x)) := by
      rw [← erase_eq_eraseIdx_indexOf]
      exact (h.trans (List.perm_cons_erase hx)).cons_inv
    have hidx : avail.indexOf x < avail.length :=
      List.indexOf_lt_length.mpr hx
    have hlen : avail.length = rest.length + 1 := by
      simpa using h.length_eq.symm
    have hbound := ih _ hrest
    rw [lehmerNat, List.length_cons, Nat.factorial_succ, Nat.succ_mul]
    have h1 : avail.indexOf x * Nat.factorial rest.length ≤
        rest.length * Nat.factorial rest.length :=
      Nat.mul_le_mul_right _ (by omega)
    omega

/-! ### Folded orientation indices -/

theorem foldl_base_lt (m : Nat) : ∀ (l : List Nat) (a : Nat),
    (∀ x ∈ l, x < m) →
    l.foldl (fun acc v => acc * m + v) a < (a + 1) * m ^ l.length := by
  intro l
  induction l with
  | nil => intro a _; simp
  | cons v t ih =>
    intro a hall
    rw [List.foldl_cons]
    have hv : v < m := hall v (by simp)
    have h1 := ih (a * m + v) (fun x hx => hall x (by simp [hx]))
    have hle : a * m + v + 1 ≤ (a + 1) * m := by
      have : (a + 1) * m = a * m + m := by ring
      omega
    have h2 : (a * m + v + 1) * m ^ t.length ≤ ((a + 1) * m) * m ^ t.length :=
      Nat.mul_le_mul_right _ hle
    calc t.foldl (fun acc v => acc * m + v) (a * m + v)
        < (a * m + v + 1) * m ^ t.length := h1
      _ ≤ ((a + 1) * m) * m ^ t.length := h2
      _ = (a + 1) * m ^ (v :: t).length := by rw [List.length_cons]; ring

theorem coOrientIdx_lt (co : List Nat) (h : ∀ x ∈ co, x < 3) :
    coOrientIdx co < 2187 := by
  have hfold := foldl_base_lt 3 (co.take 7) 0
    (fun x hx => h x (List.mem_of_mem_take hx))
  have hlen : (co.take 7).length ≤ 7 := by
    simp [List.length_take]
  have hpow : (3 : Nat) ^ (co.take 7).length ≤ 2187 := by
    calc (3 : Nat) ^ (co.take 7).length ≤ 3 ^ 7 :=
        Nat.pow_le_pow_right (by omega) hlen
      _ = 2187 := by norm_num
  unfold coOrientIdx
  omega

theorem eoOrientIdx_lt (eo : List Nat) (h : ∀ x ∈ eo, x < 2) :
    eoOrientIdx eo < 2048 := by
  have hfold := foldl_base_lt 2 (eo.take 11) 0
    (fun x hx => h x (List.mem_of_mem_take hx))
  have hlen : (eo.take 11).length ≤ 11 := by
    simp [List.length_take]
  have hpow : (2 : Nat) ^ (eo.take 11).length ≤ 2048 := by
    calc (2 : Nat) ^ (eo.take 11).length ≤ 2 ^ 11 :=
        Nat.pow_le_pow_right (by omega) hlen
      _ = 2048 := by norm_num
  unfold eoOrientIdx
  omega

/-! ### Claim C3: the encoder formula and range -/

/-- C3: on a cube state whose corners and edges are permutations and whose
orientation lists have the documented shapes, cubeStateToNumber computes
exactly the packed formula in exact integer arithmetic, and the result
lies in the closed interval from 0 to 88580102706155724799. -/
theorem claim_C3 (st : CubeState) (hcor : st.corners.Perm (List.range 8))
    (hco : st.co.length = 8) (hco3 : ∀ x ∈ st.co, x < 3)
    (hedg : st.edges.Perm (List.range 12))
    (heo : st.eo.length = 12) (heo2 : ∀ x ∈ st.eo, x < 2) :
    cubeStateToNumber st =
      ((lehmer st.corners * 2187 + (coOrientIdx st.co : Int)) * 479001600 +
        lehmer st.edges) * 2048 + (eoOrientIdx st.eo : Int) ∧
    0 ≤ cubeStateToNumber st ∧
    cubeStateToNumber st ≤ 88580102706155724799 := by
  have hcp := lehmer_eq_lehmerNat 8 st.corners hcor initFactCache
    consistent_init
  have hep := lehmer_eq_lehmerNat 12 st.edges hedg _ hcp.2
  have hep0 := lehmer_eq_lehmerNat 12 st.edges hedg initFactCache
    consistent_init
  have hformula : cubeStateToNumber st =
      ((lehmer st.corners * 2187 + (coOrientIdx st.co : Int)) * 479001600 +
        lehmer st.edges) * 2048 + (eoOrientIdx st.eo : Int) := by
    show (((lehmerC st.corners initFactCache).1 * 2187 +
        (coOrientIdx st.co : Int)) * 479001600 +
        (lehmerC st.edges (lehmerC st.corners initFactCache).2).1) * 2048 +
        (eoOrientIdx st.eo : Int) = _
    rw [hep.1]
    show _ = (((lehmerC st.corners initFactCache).1 * 2187 +
        (coOrientIdx st.co : Int)) * 479001600 +
        (lehmerC st.edges initFactCache).1) * 2048 +
        (eoOrientIdx st.eo : Int)
    rw [hep0.1]
  have hc1 : lehmer st.corners = (lehmerNat st.corners (List.range 8) : Int) :=
    hcp.1
  have hc2 : lehmer st.edges = (lehmerNat st.edges (List.range 12) : Int) :=
    hep0.1
  have hb1 : lehmerNat st.corners (List.range 8) < 40320 := by
    have h := lehmerNat_lt st.corners (List.range 8) hcor
    have hl : st.corners.length = 8 := by simpa using hcor.length_eq
    rw [hl] at h
    have : Nat.factorial 8 = 40320 := by decide
    omega
  have hb2 : lehmerNat st.edges (List.range 12) < 479001600 := by
    have h := lehmerNat_lt st.edges (List.range 12) hedg
    have hl : st.edges.length = 12 := by simpa using hedg.length_eq
    rw [hl] at h
    have : Nat.factorial 12 = 479001600 := by decide
    omega
  have hb3 := coOrientIdx_lt st.co hco3
  have hb4 := eoOrientIdx_lt st.eo heo2
  refine ⟨hformula, ?_, ?_⟩
  · rw [hformula, hc1, hc2]
    positivity
  · rw [hformula, hc1, hc2]
    have c1 : (lehmerNat st.corners (List.range 8) : Int) ≤ 40319 := by
      exact_mod_cast Nat.le_of_lt_succ (by omega)
    have c2 : (lehmerNat st.edges (List.range 12) : Int) ≤ 479001599 := by
      exact_mod_cast Nat.le_of_lt_succ (by omega)
    have c3 : (coOrientIdx st.co : Int) ≤ 2186 := by
      exact_mod_cast Nat.le_of_lt_succ (by omega)
    have c4 : (eoOrientIdx st.eo : Int) ≤ 2047 := by
      exact_mod_cast Nat.le_of_lt_succ (by omega)
    have n1 : (0 : Int) ≤ (lehmerNat st.corners (List.range 8) : Int) := by
      positivity
    have n2 : (0 : Int) ≤ (lehmerNat st.edges (List.range 12) : Int) := by
      positivity
    nlinarith [c1, c2, c3, c4, n1, n2]

/-- Witness for C3 at the identity cube state, which encodes to 0. -/
theorem claim_C3_witness :
    cubeStateToNumber ⟨List.range 8, List.replicate 8 0, List.range 12,
      List.replicate 12 0⟩ ≤ 88580102706155724799 :=
  (claim_C3 _ (List.Perm.refl _) (by decide) (by decide) (List.Perm.refl _)
    (by decide) (by decide)).2.2

/-! ### Claim C1: determinism of the full pipeline -/

/-- The encoder's value does not depend on the consistent cache it starts
from, and it leaves the cache consistent. -/
theorem cubeStateToNumberC_spec (st : CubeState) (c : FactCache)
    (hcor : st.corners.Perm (List.range 8))
    (hedg : st.edges.Perm (List.range 12)) (hc : ConsistentFactCache c) :
    (cubeStateToNumberC st c).1 = cubeStateToNumber st ∧
    ConsistentFactCache (cubeStateToNumberC st c).2 := by
  have hcp := lehmer_eq_lehmerNat 8 st.corners hcor c hc
  have hep := lehmer_eq_lehmerNat 12 st.edges hedg _ hcp.2
  have hcp0 := lehmer_eq_lehmerNat 8 st.corners hcor initFactCache
    consistent_init
  have hep0 := lehmer_eq_lehmerNat 12 st.edges hedg _ hcp0.2
  constructor
  · show (((lehmerC st.corners c).1 * 2187 + (coOrientIdx st.co : Int)) *
        479001600 + (lehmerC st.edges (lehmerC st.corners c).2).1) * 2048 +
        (eoOrientIdx st.eo : Int) =
      (((lehmerC st.corners initFactCache).1 * 2187 +
        (coOrientIdx st.co : Int)) * 479001600 +
        (lehmerC st.edges (lehmerC st.corners initFactCache).2).1) * 2048 +
        (eoOrientIdx st.eo : Int)
    rw [hcp.1, hep.1, hcp0.1, hep0.1]
  · show ConsistentFactCache (lehmerC st.edges (lehmerC st.corners c).2).2
    exact hep.2

/-- anonymizeIpC written out componentwise. -/
theorem anonymizeIpC_eq (l : List Nat) (c : FactCache) :
    anonymizeIpC l c =
      (AnonResult.mk
        (toString (cubeStateToNumberC
          (snowflakeToRubiksCube (seedToSnowflake (ipToSeed l))) c).1)
        (seedToSnowflake (ipToSeed l))
        (snowflakeToRubiksCube (seedToSnowflake (ipToSeed l))),
       (cubeStateToNumberC
         (snowflakeToRubiksCube (seedToSnowflake (ipToSeed l))) c).2) := rfl

/-- C1: the pipeline is deterministic and carries no cross-call state:
from any consistent factorial cache, running anonymizeIp a second time —
on the cache the first run left behind — returns an identical result (the
same snowflake genome, cube state and unique-id string, hence the same
seed, a pure function of the input), the result coincides with the
canonical cache-independent value, and the cache stays consistent.  All
other state (the two RNG streams, the arrays) is created afresh inside
the call, which the functional model exhibits. -/
theorem claim_C1 (l : List Nat) (c : FactCache)
    (hc : ConsistentFactCache c) :
    (anonymizeIpC l ((anonymizeIpC l c).2)).1 = (anonymizeIpC l c).1 ∧
    (anonymizeIpC l c).1 = anonymizeIp l ∧
    ConsistentFactCache ((anonymizeIpC l c).2) := by
  have hcor : (snowflakeToRubiksCube (seedToSnowflake (ipToSeed l))).corners.Perm
      (List.range 8) := by
    rw [cube_corners_eq]
    exact cubeCorners_perm _
  have hedg : (snowflakeToRubiksCube (seedToSnowflake (ipToSeed l))).edges.Perm
      (List.range 12) := by
    rw [cube_edges_eq]
    exact cubeEdges_perm _
  have h1 := cubeStateToNumberC_spec _ c hcor hedg hc
  have h2 := cubeStateToNumberC_spec _
    ((cubeStateToNumberC (snowflakeToRubiksCube (seedToSnowflake (ipToSeed l)))
      c).2) hcor hedg h1.2
  have h0 := cubeStateToNumberC_spec _ initFactCache hcor hedg consistent_init
  simp only [anonymizeIp, anonymizeIpC_eq]
  refine ⟨?_, ?_, h1.2⟩
  · rw [h2.1, h1.1]
  · rw [h1.1, h0.1]

/-- Witness for C1 at a concrete IPv4 input and the initial module
cache. -/
theorem claim_C1_witness :
    (anonymizeIpC (codes "1.2.3.4") initFactCache).1 =
      anonymizeIp (codes "1.2.3.4") :=
  (claim_C1 (codes "1.2.3.4") initFactCache (by decide)).2.1

/-! ### Claim C4: the Lehmer code is a bijection -/

/-- Modelled from the spec: the inverse Lehmer procedure of the round-trip
test (section 8), which the repository does not ship in src — divide by the
factorial of the remaining length to recover each rank, pick that element
of the shrinking avail list, and continue with the remainder. -/
def decodeLehmer : Nat → List Nat → Nat → List Nat
  | 0, _, _ => []
  | n + 1, avail, idx =>
    avail.getD (idx / Nat.factorial n) 0 ::
      decodeLehmer n (avail.eraseIdx (idx / Nat.factorial n))
        (idx % Nat.factorial n)

theorem perm_getD_cons_eraseIdx : ∀ (l : List Nat) (q : Nat),
    q < l.length → l.Perm (l.getD q 0 :: l.eraseIdx q) := by
  intro l
  induction l with
  | nil => intro q hq; simp at hq
  | cons y ys ih =>
    intro q hq
    cases q with
    | zero => exact List.Perm.refl _
    | succ m =>
      have hm : m < ys.length := by simpa using hq
      show (y :: ys).Perm (ys.getD m 0 :: y :: ys.eraseIdx m)
      exact ((ih m hm).cons y).trans
        (List.Perm.swap (ys.getD m 0) y (ys.eraseIdx m))

/-- Decoding the Lehmer value of an arrangement recovers the
arrangement. -/
theorem decodeLehmer_lehmerNat : ∀ (perm avail : List Nat), perm.Nodup →
    perm.Perm avail →
    decodeLehmer perm.length avail (lehmerNat perm avail) = perm := by
  intro perm
  induction perm with
  | nil => intro avail _ _; rfl
  | cons x rest ih =>
    intro avail hnd h
    have hx : x ∈ avail := h.mem_iff.mp (by simp)
    have hidx : avail.indexOf x < avail.length :=
      List.indexOf_lt_length.mpr hx
    have hrest : rest.Perm (avail.eraseIdx (avail.indexOf x)) := by
      rw [← erase_eq_eraseIdx_indexOf]
      exact (h.trans (List.perm_cons_erase hx)).cons_inv
    have hrid : lehmerNat rest (avail.eraseIdx (avail.indexOf x)) <
        Nat.factorial rest.length := lehmerNat_lt _ _ hrest
    have hdiv : (avail.indexOf x * Nat.factorial rest.length +
        lehmerNat rest (avail.eraseIdx (avail.indexOf x))) /
        Nat.factorial rest.length = avail.indexOf x := by
      rw [Nat.add_comm, Nat.add_mul_div_right _ _ (Nat.factorial_pos _)]
      rw [Nat.div_eq_of_lt hrid]
      omega
    have hmod : (avail.indexOf x * Nat.factorial rest.length +
        lehmerNat rest (avail.eraseIdx (avail.indexOf x))) %
        Nat.factorial rest.length =
        lehmerNat rest (avail.eraseIdx (avail.indexOf x)) := by
      rw [Nat.add_comm, Nat.add_mul_mod_self_right]
      exact Nat.mod_eq_of_lt hrid
    show decodeLehmer (rest.length + 1) avail (lehmerNat (x :: rest) avail)
      = x :: rest
    rw [decodeLehmer, lehmerNat, hdiv, hmod]
    have hget : avail.getD (avail.indexOf x) 0 = x := by
      rw [List.getD_eq_getElem _ _ hidx]
      exact List.getElem_indexOf hidx
    rw [hget, ih _ (List.nodup_cons.mp hnd).2 hrest]

/-- Decoding any value below the factorial produces an arrangement whose
Lehmer value is that value. -/
theorem lehmerNat_decodeLehmer : ∀ (n : Nat) (avail : List Nat) (k : Nat),
    avail.length = n → avail.Nodup → k < Nat.factorial n →
    (decodeLehmer n avail k).Perm avail ∧
    lehmerNat (decodeLehmer n avail k) avail = k := by
  intro n
  induction n with
  | zero =>
    intro avail k hlen _ hk
    have : avail = [] := List.length_eq_zero.mp hlen
    subst this
    have : k = 0 := by
      have : Nat.factorial 0 = 1 := rfl
      omega
    subst this
    exact ⟨List.Perm.refl _, rfl⟩
  | succ n ih =>
    intro avail k hlen hnd hk
    have hq : k / Nat.factorial n < n + 1 := by
      rw [Nat.div_lt_iff_lt_mul (Nat.factorial_pos n)]
      have : Nat.factorial (n + 1) = (n + 1) * Nat.factorial n :=
        Nat.factorial_succ n
      omega
    have hqlen : k / Nat.factorial n < avail.length := by omega
    have hlen' : (avail.eraseIdx (k / Nat.factorial n)).length = n := by
      rw [List.length_eraseIdx]
      rw [if_pos hqlen]
      omega
    have hnd' : (avail.eraseIdx (k / Nat.factorial n)).Nodup :=
      hnd.eraseIdx _
    have hk' : k % Nat.factorial n < Nat.factorial n :=
      Nat.mod_lt _ (Nat.factorial_pos n)
    obtain ⟨hperm, hval⟩ := ih (avail.eraseIdx (k / Nat.factorial n))
      (k % Nat.factorial n) hlen' hnd' hk'
    have hx : avail.getD (k / Nat.factorial n) 0 =
        avail.get ⟨k / Nat.factorial n, hqlen⟩ := by
      rw [List.getD_eq_getElem _ _ hqlen]
      rfl
    have hmemx : avail.getD (k / Nat.factorial n) 0 ∈ avail := by
      rw [hx]
      exact List.get_mem _ _ _
    constructor
    · rw [decodeLehmer]
      exact ((hperm.cons _).trans
        (perm_getD_cons_eraseIdx avail _ hqlen).symm)
    · rw [decodeLehmer, lehmerNat]
      have hlenrest : (decodeLehmer n (avail.eraseIdx (k / Nat.factorial n))
          (k % Nat.factorial n)).length = n := by
        rw [hperm.length_eq, hlen']
      have hio : avail.indexOf (avail.getD (k / Nat.factorial n) 0) =
          k / Nat.factorial n := by
        rw [hx]
        exact List.get_indexOf hnd _
      rw [hio, hlenrest, hval]
      exact Nat.div_add_mod' k (Nat.factorial n)

/-- C4: the Lehmer encoder restricted to arrangements of 0..n-1 (n is 8
for corners and 12 for edges) is a bijection onto 0..n!-1: it lands in
that interval and the spec's inverse procedure recovers the exact original
permutation, and conversely every value in the interval decodes to an
arrangement that encodes back to it. -/
theorem claim_C4 :
    (∀ (n : Nat) (l : List Nat), l.Perm (List.range n) →
      0 ≤ lehmer l ∧ lehmer l < (Nat.factorial n : Int) ∧
      decodeLehmer n (List.range n) (lehmer l).toNat = l) ∧
    (∀ (n k : Nat), k < Nat.factorial n →
      (decodeLehmer n (List.range n) k).Perm (List.range n) ∧
      lehmer (decodeLehmer n (List.range n) k) = (k : Int)) := by
  constructor
  · intro n l h
    have hval : lehmer l = (lehmerNat l (List.range n) : Int) :=
      (lehmer_eq_lehmerNat n l h initFactCache consistent_init).1
    have hlen : l.length = n := by simpa using h.length_eq
    have hlt : lehmerNat l (List.range n) < Nat.factorial n := by
      have := lehmerNat_lt l (List.range n) h
      rwa [hlen] at this
    refine ⟨by rw [hval]; positivity, by rw [hval]; exact_mod_cast hlt, ?_⟩
    rw [hval]
    rw [Int.toNat_natCast]
    have hnd : l.Nodup := (h.nodup_iff).mpr (List.nodup_range n)
    have := decodeLehmer_lehmerNat l (List.range n) hnd h
    rwa [hlen] at this
  · intro n k hk
    obtain ⟨hperm, hval⟩ := lehmerNat_decodeLehmer n (List.range n) k
      (by simp) (List.nodup_range n) hk
    refine ⟨hperm, ?_⟩
    have := (lehmer_eq_lehmerNat n _ hperm initFactCache consistent_init).1
    unfold lehmer
    rw [this, hval]

/-- Witness for C4 at a concrete transposition of eight elements and a
concrete index. -/
theorem claim_C4_witness :
    decodeLehmer 8 (List.range 8)
      (lehmer [1, 0, 2, 3, 4, 5, 6, 7]).toNat = [1, 0, 2, 3, 4, 5, 6, 7] ∧
    lehmer (decodeLehmer 12 (List.range 12) 5) = (5 : Int) :=
  ⟨(claim_C4.1 8 [1, 0, 2, 3, 4, 5, 6, 7] (by decide)).2.2,
   (claim_C4.2 12 5 (by decide)).2⟩

/-! ### Orbit structure of a permutation of Fin n

The parity computed by permParity counts even-length cycles; this section
builds the orbit partition of a permutation and relates the count of
even-sized orbits to the sign.  Everything is elementary: the only facts
imported are the multiplicativity of the sign, the sign of a swap, and the
support-shrinking swap trick. -/

theorem perm_pow_fix_exists {n : ℕ} (σ : Equiv.Perm (Fin n)) (x : Fin n) :
    ∃ p, 0 < p ∧ (σ ^ p) x = x :=
  ⟨orderOf σ, orderOf_pos σ, by rw [pow_orderOf_eq_one]; rfl⟩

/-- The least positive p with σ to the p fixing x. -/
def pPeriod {n : ℕ} (σ : Equiv.Perm (Fin n)) (x : Fin n) : ℕ :=
  Nat.find (perm_pow_fix_exists σ x)

theorem pPeriod_pos {n : ℕ} (σ : Equiv.Perm (Fin n)) (x : Fin n) :
    0 < pPeriod σ x := (Nat.find_spec (perm_pow_fix_exists σ x)).1

theorem pPeriod_fix {n : ℕ} (σ : Equiv.Perm (Fin n)) (x : Fin n) :
    (σ ^ pPeriod σ x) x = x := (Nat.find_spec (perm_pow_fix_exists σ x)).2

theorem pPeriod_min {n : ℕ} (σ : Equiv.Perm (Fin n)) (x : Fin n) {k : ℕ}
    (h0 : 0 < k) (hk : k < pPeriod σ x) : (σ ^ k) x ≠ x :=
  fun he => Nat.find_min (perm_pow_fix_exists σ x) hk ⟨h0, he⟩

/-- Any fixed exponent lets every power be reduced mod it at that point. -/
theorem pow_mod_of_fix {n : ℕ} (f : Equiv.Perm (Fin n)) (y : Fin n) (e : ℕ)
    (hfix : (f ^ e) y = y) : ∀ k, (f ^ k) y = (f ^ (k % e)) y := by
  have hmul : ∀ a, (f ^ (a * e)) y = y := by
    intro a
    induction a with
    | zero => simp
    | succ m ih =>
      rw [Nat.succ_mul, pow_add, Equiv.Perm.mul_apply, hfix, ih]
  intro k
  conv_lhs => rw [← Nat.mod_add_div k e]
  rw [pow_add, Equiv.Perm.mul_apply]
  rw [show e * (k / e) = (k / e) * e from Nat.mul_comm _ _, hmul]

theorem pow_mod_period {n : ℕ} (σ : Equiv.Perm (Fin n)) (x : Fin n)
    (k : ℕ) : (σ ^ k) x = (σ ^ (k % pPeriod σ x)) x :=
  pow_mod_of_fix σ x (pPeriod σ x) (pPeriod_fix σ x) k

theorem pow_inj_lt_period {n : ℕ} (σ : Equiv.Perm (Fin n)) (x : Fin n)
    {k m : ℕ} (hk : k < pPeriod σ x) (hm : m < pPeriod σ x)
    (he : (σ ^ k) x = (σ ^ m) x) : k = m := by
  rcases Nat.lt_trichotomy k m with h | h | h
  · exfalso
    have h1 : (σ ^ m) x = (σ ^ k) ((σ ^ (m - k)) x) := by
      rw [← Equiv.Perm.mul_apply, ← pow_add,
        show k + (m - k) = m from by omega]
    have h2 : (σ ^ (m - k)) x = x := by
      apply Equiv.injective (σ ^ k)
      rw [← h1, he]
    exact pPeriod_min σ x (by omega) (by omega) h2
  · exact h
  · exfalso
    have h1 : (σ ^ k) x = (σ ^ m) ((σ ^ (k - m)) x) := by
      rw [← Equiv.Perm.mul_apply, ← pow_add,
        show m + (k - m) = k from by omega]
    have h2 : (σ ^ (k - m)) x = x := by
      apply Equiv.injective (σ ^ m)
      rw [← h1, he]
    exact pPeriod_min σ x (by omega) (by omega) h2

/-- The orbit of x: the image of the first period-many powers. -/
def pOrbit {n : ℕ} (σ : Equiv.Perm (Fin n)) (x : Fin n) : Finset (Fin n) :=
  (Finset.range (pPeriod σ x)).image (fun k => (σ ^ k) x)

theorem mem_pOrbit_iff {n : ℕ} {σ : Equiv.Perm (Fin n)} {x y : Fin n} :
    y ∈ pOrbit σ x ↔ ∃ k, (σ ^ k) x = y := by
  constructor
  · intro h
    rw [pOrbit, Finset.mem_image] at h
    obtain ⟨k, _, hk⟩ := h
    exact ⟨k, hk⟩
  · rintro ⟨k, hk⟩
    rw [pOrbit, Finset.mem_image]
    refine ⟨k % pPeriod σ x,
      Finset.mem_range.mpr (Nat.mod_lt _ (pPeriod_pos σ x)), ?_⟩
    rw [← pow_mod_period]
    exact hk

theorem mem_pOrbit_self {n : ℕ} (σ : Equiv.Perm (Fin n)) (x : Fin n) :
    x ∈ pOrbit σ x := mem_pOrbit_iff.mpr ⟨0, rfl⟩

theorem pOrbit_card {n : ℕ} (σ : Equiv.Perm (Fin n)) (x : Fin n) :
    (pOrbit σ x).card = pPeriod σ x := by
  rw [pOrbit, Finset.card_image_of_injOn, Finset.card_range]
  intro a ha b hb he
  exact pow_inj_lt_period σ x (Finset.mem_range.mp (Finset.mem_coe.mp ha))
    (Finset.mem_range.mp (Finset.mem_coe.mp hb)) he

theorem apply_mem_pOrbit {n : ℕ} {σ : Equiv.Perm (Fin n)} {x y : Fin n}
    (h : y ∈ pOrbit σ x) : σ y ∈ pOrbit σ x := by
  obtain ⟨k, hk⟩ := mem_pOrbit_iff.mp h
  refine mem_pOrbit_iff.mpr ⟨k + 1, ?_⟩
  rw [pow_succ', Equiv.Perm.mul_apply, hk]

theorem exists_pow_back {n : ℕ} {σ : Equiv.Perm (Fin n)} {x y : Fin n}
    (h : y ∈ pOrbit σ x) : ∃ t, (σ ^ t) y = x := by
  obtain ⟨j, hj⟩ := mem_pOrbit_iff.mp h
  have hj' : (σ ^ (j % pPeriod σ x)) x = y := by
    rw [← pow_mod_period]
    exact hj
  refine ⟨pPeriod σ x - j % pPeriod σ x, ?_⟩
  rw [← hj', ← Equiv.Perm.mul_apply, ← pow_add]
  have hlt : j % pPeriod σ x < pPeriod σ x :=
    Nat.mod_lt _ (pPeriod_pos σ x)
  rw [show pPeriod σ x - j % pPeriod σ x + j % pPeriod σ x = pPeriod σ x
    by omega]
  exact pPeriod_fix σ x

theorem pOrbit_eq_of_mem {n : ℕ} {σ : Equiv.Perm (Fin n)} {x y : Fin n}
    (h : y ∈ pOrbit σ x) : pOrbit σ y = pOrbit σ x := by
  obtain ⟨j, hj⟩ := mem_pOrbit_iff.mp h
  obtain ⟨t, ht⟩ := exists_pow_back h
  ext z
  rw [mem_pOrbit_iff, mem_pOrbit_iff]
  constructor
  · rintro ⟨k, hk⟩
    exact ⟨k + j, by rw [pow_add, Equiv.Perm.mul_apply, hj, hk]⟩
  · rintro ⟨m, hm⟩
    exact ⟨m + t, by rw [pow_add, Equiv.Perm.mul_apply, ht, hm]⟩

/-- The orbit partition. -/
def orbitsOf {n : ℕ} (σ : Equiv.Perm (Fin n)) : Finset (Finset (Fin n)) :=
  Finset.univ.image (pOrbit σ)

/-- The number of even-sized orbits — the quantity permParity reduces
mod 2. -/
def evenOrbitCount {n : ℕ} (σ : Equiv.Perm (Fin n)) : ℕ :=
  ((orbitsOf σ).filter (fun o => o.card % 2 = 0)).card

theorem pOrbit_one {n : ℕ} (x : Fin n) :
    pOrbit (1 : Equiv.Perm (Fin n)) x = {x} := by
  ext z
  rw [mem_pOrbit_iff, Finset.mem_singleton]
  constructor
  · rintro ⟨k, hk⟩
    rw [one_pow] at hk
    exact hk.symm
  · intro hz
    exact ⟨0, by rw [pow_zero, hz]; rfl⟩

theorem evenOrbitCount_one {n : ℕ} :
    evenOrbitCount (1 : Equiv.Perm (Fin n)) = 0 := by
  rw [evenOrbitCount, Finset.card_eq_zero, Finset.filter_eq_empty_iff]
  intro o ho
  rw [orbitsOf, Finset.mem_image] at ho
  obtain ⟨x, _, hx⟩ := ho
  rw [← hx, pOrbit_one]
  simp

/-! ### Composing with the swap of a and σ a: orbit surgery

Multiplying σ on the left by the swap of a and σ a detaches a from its
cycle: a becomes a fixed point and the remaining cycle closes over the
other elements.  All other orbits are untouched.  The even-orbit count
therefore changes parity, since exactly one of p and p - 1 is even. -/

theorem swapMul_apply {n : ℕ} (σ : Equiv.Perm (Fin n)) (a x : Fin n) :
    (Equiv.swap a (σ a) * σ) x =
      if σ x = a then σ a else if σ x = σ a then a else σ x := by
  rw [Equiv.Perm.mul_apply, Equiv.swap_apply_def]

theorem swapMul_apply_self {n : ℕ} (σ : Equiv.Perm (Fin n)) (a : Fin n) :
    (Equiv.swap a (σ a) * σ) a = a := by
  rw [Equiv.Perm.mul_apply, Equiv.swap_apply_right]

theorem swapMul_pow_eq_of_notmem {n : ℕ} (σ : Equiv.Perm (Fin n))
    (a x : Fin n) (hx : x ∉ pOrbit σ a) :
    ∀ k, ((Equiv.swap a (σ a) * σ) ^ k) x = (σ ^ k) x := by
  have hstep : ∀ m, σ ((σ ^ m) x) ≠ a ∧ σ ((σ ^ m) x) ≠ σ a := by
    intro m
    constructor
    · intro he
      have hmem : a ∈ pOrbit σ x := mem_pOrbit_iff.mpr
        ⟨m + 1, by rw [pow_succ', Equiv.Perm.mul_apply, he]⟩
      have := pOrbit_eq_of_mem hmem
      exact hx (this ▸ mem_pOrbit_self σ x)
    · intro he
      have hma : (σ ^ m) x = a := Equiv.injective σ he
      have hmem : a ∈ pOrbit σ x := mem_pOrbit_iff.mpr ⟨m, hma⟩
      have := pOrbit_eq_of_mem hmem
      exact hx (this ▸ mem_pOrbit_self σ x)
  intro k
  induction k with
  | zero => rfl
  | succ m ih =>
    calc ((Equiv.swap a (σ a) * σ) ^ (m + 1)) x
        = (Equiv.swap a (σ a) * σ) (((Equiv.swap a (σ a) * σ) ^ m) x) := by
          rw [pow_succ', Equiv.Perm.mul_apply]
      _ = (Equiv.swap a (σ a) * σ) ((σ ^ m) x) := by rw [ih]
      _ = σ ((σ ^ m) x) := by
          rw [swapMul_apply, if_neg (hstep m).1, if_neg (hstep m).2]
      _ = (σ ^ (m + 1)) x := by rw [pow_succ', Equiv.Perm.mul_apply]

theorem pOrbit_swapMul_of_notmem {n : ℕ} (σ : Equiv.Perm (Fin n))
    (a x : Fin n) (hx : x ∉ pOrbit σ a) :
    pOrbit (Equiv.swap a (σ a) * σ) x = pOrbit σ x := by
  ext z
  rw [mem_pOrbit_iff, mem_pOrbit_iff]
  constructor
  · rintro ⟨k, hk⟩
    exact ⟨k, by rw [← swapMul_pow_eq_of_notmem σ a x hx k]; exact hk⟩
  · rintro ⟨k, hk⟩
    exact ⟨k, by rw [swapMul_pow_eq_of_notmem σ a x hx k]; exact hk⟩

theorem pOrbit_swapMul_self {n : ℕ} (σ : Equiv.Perm (Fin n)) (a : Fin n) :
    pOrbit (Equiv.swap a (σ a) * σ) a = {a} := by
  have hfix : ∀ k, ((Equiv.swap a (σ a) * σ) ^ k) a = a := by
    intro k
    induction k with
    | zero => rfl
    | succ m ih =>
      rw [pow_succ', Equiv.Perm.mul_apply, ih, swapMul_apply_self]
  ext z
  rw [mem_pOrbit_iff, Finset.mem_singleton]
  constructor
  · rintro ⟨k, hk⟩
    rw [hfix k] at hk
    exact hk.symm
  · intro hz
    exact ⟨0, by rw [pow_zero, hz]; rfl⟩

theorem period_ge_two {n : ℕ} (σ : Equiv.Perm (Fin n)) (a : Fin n)
    (ha : σ a ≠ a) : 2 ≤ pPeriod σ a := by
  have h1 := pPeriod_pos σ a
  by_contra h
  have hp : pPeriod σ a = 1 := by omega
  have := pPeriod_fix σ a
  rw [hp, pow_one] at this
  exact ha this

theorem swapMul_pow_sigma_a {n : ℕ} (σ : Equiv.Perm (Fin n)) (a : Fin n)
    (ha : σ a ≠ a) : ∀ t, t ≤ pPeriod σ a - 2 →
    ((Equiv.swap a (σ a) * σ) ^ t) (σ a) = (σ ^ (t + 1)) a := by
  intro t
  induction t with
  | zero => intro _; rw [pow_zero, pow_one]; rfl
  | succ m ih =>
    intro hm
    have hp2 := period_ge_two σ a ha
    have h1 : σ ((σ ^ (m + 1)) a) ≠ a := by
      intro he
      have h3 : (σ ^ (m + 1 + 1)) a = a := by
        rw [pow_succ', Equiv.Perm.mul_apply, he]
      exact pPeriod_min σ a (by omega) (by omega) h3
    have h2 : σ ((σ ^ (m + 1)) a) ≠ σ a := by
      intro he
      have := Equiv.injective σ he
      exact pPeriod_min σ a (by omega) (by omega) this
    calc ((Equiv.swap a (σ a) * σ) ^ (m + 1)) (σ a)
        = (Equiv.swap a (σ a) * σ)
            (((Equiv.swap a (σ a) * σ) ^ m) (σ a)) := by
          rw [pow_succ', Equiv.Perm.mul_apply]
      _ = (Equiv.swap a (σ a) * σ) ((σ ^ (m + 1)) a) := by
          rw [ih (by omega)]
      _ = σ ((σ ^ (m + 1)) a) := by
          rw [swapMul_apply, if_neg h1, if_neg h2]
      _ = (σ ^ (m + 1 + 1)) a := by
          conv_rhs => rw [pow_succ', Equiv.Perm.mul_apply]

theorem swapMul_pow_last {n : ℕ} (σ : Equiv.Perm (Fin n)) (a : Fin n)
    (ha : σ a ≠ a) :
    ((Equiv.swap a (σ a) * σ) ^ (pPeriod σ a - 1)) (σ a) = σ a := by
  have hp2 := period_ge_two σ a ha
  have h := swapMul_pow_sigma_a σ a ha (pPeriod σ a - 2) (le_refl _)
  rw [show pPeriod σ a - 1 = (pPeriod σ a - 2) + 1 from by omega,
    pow_succ', Equiv.Perm.mul_apply, h]
  have hfix : σ ((σ ^ (pPeriod σ a - 2 + 1)) a) = a := by
    rw [← Equiv.Perm.mul_apply, ← pow_succ',
      show pPeriod σ a - 2 + 1 + 1 = pPeriod σ a from by omega]
    exact pPeriod_fix σ a
  rw [swapMul_apply, if_pos hfix]

theorem pOrbit_swapMul_sigma_a {n : ℕ} (σ : Equiv.Perm (Fin n)) (a : Fin n)
    (ha : σ a ≠ a) :
    pOrbit (Equiv.swap a (σ a) * σ) (σ a) = (pOrbit σ a).erase a := by
  have hp2 := period_ge_two σ a ha
  have hp1 : 0 < pPeriod σ a - 1 := by omega
  ext z
  rw [Finset.mem_erase, mem_pOrbit_iff]
  constructor
  · rintro ⟨k, hk⟩
    have hred : ((Equiv.swap a (σ a) * σ) ^ k) (σ a) =
        ((Equiv.swap a (σ a) * σ) ^ (k % (pPeriod σ a - 1))) (σ a) :=
      pow_mod_of_fix _ _ _ (swapMul_pow_last σ a ha) k
    have hlt : k % (pPeriod σ a - 1) < pPeriod σ a - 1 :=
      Nat.mod_lt _ hp1
    rw [hred, swapMul_pow_sigma_a σ a ha _ (by omega)] at hk
    constructor
    · rw [← hk]
      exact pPeriod_min σ a (by omega) (by omega)
    · exact mem_pOrbit_iff.mpr ⟨k % (pPeriod σ a - 1) + 1, hk⟩
  · rintro ⟨hza, hz⟩
    obtain ⟨m, hm⟩ := mem_pOrbit_iff.mp hz
    have hm' : (σ ^ (m % pPeriod σ a)) a = z := by
      rw [← pow_mod_period]
      exact hm
    have hlt : m % pPeriod σ a < pPeriod σ a :=
      Nat.mod_lt _ (pPeriod_pos σ a)
    have hm0 : 0 < m % pPeriod σ a := by
      rcases Nat.eq_zero_or_pos (m % pPeriod σ a) with h0 | h0
      · exfalso
        rw [h0, pow_zero] at hm'
        exact hza hm'.symm
      · exact h0
    refine ⟨m % pPeriod σ a - 1, ?_⟩
    rw [swapMul_pow_sigma_a σ a ha _ (by omega),
      show m % pPeriod σ a - 1 + 1 = m % pPeriod σ a from by omega]
    exact hm'

theorem orbitsOf_swapMul {n : ℕ} (σ : Equiv.Perm (Fin n)) (a : Fin n)
    (ha : σ a ≠ a) :
    orbitsOf (Equiv.swap a (σ a) * σ) =
      insert {a} (insert ((pOrbit σ a).erase a)
        ((orbitsOf σ).erase (pOrbit σ a))) := by
  ext o
  simp only [orbitsOf, Finset.mem_image, Finset.mem_univ, true_and,
    Finset.mem_insert, Finset.mem_erase]
  constructor
  · rintro ⟨x, rfl⟩
    by_cases hx : x ∈ pOrbit σ a
    · by_cases hxa : x = a
      · subst hxa
        left
        exact pOrbit_swapMul_self σ x
      · right; left
        have hxmem : x ∈ pOrbit (Equiv.swap a (σ a) * σ) (σ a) := by
          rw [pOrbit_swapMul_sigma_a σ a ha]
          exact Finset.mem_erase.mpr ⟨hxa, hx⟩
        rw [pOrbit_eq_of_mem hxmem]
        exact pOrbit_swapMul_sigma_a σ a ha
    · right; right
      rw [pOrbit_swapMul_of_notmem σ a x hx]
      refine ⟨?_, x, rfl⟩
      intro he
      exact hx (he ▸ mem_pOrbit_self σ x)
  · rintro (rfl | rfl | ⟨hne, y, rfl⟩)
    · exact ⟨a, pOrbit_swapMul_self σ a⟩
    · exact ⟨σ a, pOrbit_swapMul_sigma_a σ a ha⟩
    · have hy : y ∉ pOrbit σ a := by
        intro hmem
        exact hne (pOrbit_eq_of_mem hmem)
      exact ⟨y, pOrbit_swapMul_of_notmem σ a y hy⟩

theorem evenOrbitCount_swapMul {n : ℕ} (σ : Equiv.Perm (Fin n)) (a : Fin n)
    (ha : σ a ≠ a) :
    evenOrbitCount (Equiv.swap a (σ a) * σ) % 2 ≠ evenOrbitCount σ % 2 := by
  have hp2 := period_ge_two σ a ha
  have hOin : pOrbit σ a ∈ orbitsOf σ := by
    rw [orbitsOf, Finset.mem_image]
    exact ⟨a, Finset.mem_univ a, rfl⟩
  have hsa_mem : σ a ∈ (pOrbit σ a).erase a :=
    Finset.mem_erase.mpr ⟨ha, mem_pOrbit_iff.mpr ⟨1, pow_one σ ▸ rfl⟩⟩
  have hne_single : ({a} : Finset (Fin n)) ≠ (pOrbit σ a).erase a := by
    intro he
    rw [← he] at hsa_mem
    exact ha (Finset.mem_singleton.mp hsa_mem)
  have h1 : ({a} : Finset (Fin n)) ∉ (orbitsOf σ).erase (pOrbit σ a) := by
    intro hmem
    obtain ⟨hne, hor⟩ := Finset.mem_erase.mp hmem
    rw [orbitsOf, Finset.mem_image] at hor
    obtain ⟨y, _, hy⟩ := hor
    have hya : y = a := by
      have : y ∈ pOrbit σ y := mem_pOrbit_self σ y
      rw [hy] at this
      exact Finset.mem_singleton.mp this
    subst hya
    exact hne (hy.symm)
  have h2 : (pOrbit σ a).erase a ∉ (orbitsOf σ).erase (pOrbit σ a) := by
    intro hmem
    obtain ⟨hne, hor⟩ := Finset.mem_erase.mp hmem
    rw [orbitsOf, Finset.mem_image] at hor
    obtain ⟨y, _, hy⟩ := hor
    have hymem : y ∈ (pOrbit σ a).erase a := by
      rw [← hy]
      exact mem_pOrbit_self σ y
    have : pOrbit σ y = pOrbit σ a :=
      pOrbit_eq_of_mem (Finset.mem_of_mem_erase hymem)
    rw [this] at hy
    have : a ∈ (pOrbit σ a).erase a := by
      rw [← hy]
      exact mem_pOrbit_self σ a
    exact (Finset.mem_erase.mp this).1 rfl
  have hcardO : (pOrbit σ a).card = pPeriod σ a := pOrbit_card σ a
  have hcardE : ((pOrbit σ a).erase a).card = pPeriod σ a - 1 := by
    rw [Finset.card_erase_of_mem (mem_pOrbit_self σ a), hcardO]
  have hONotE : pOrbit σ a ∉ (orbitsOf σ).erase (pOrbit σ a) :=
    Finset.not_mem_erase _ _
  have hsplit : orbitsOf σ =
      insert (pOrbit σ a) ((orbitsOf σ).erase (pOrbit σ a)) :=
    (Finset.insert_erase hOin).symm
  rw [evenOrbitCount, evenOrbitCount, orbitsOf_swapMul σ a ha]
  conv_rhs => rw [hsplit]
  rw [Finset.filter_insert, Finset.filter_insert, Finset.filter_insert]
  rw [if_neg (by simp)]
  rw [hcardE, hcardO]
  by_cases hpe : pPeriod σ a % 2 = 0
  · rw [if_neg (by omega), if_pos hpe]
    rw [Finset.card_insert_of_not_mem
      (fun hmem => hONotE (Finset.mem_of_mem_filter _ hmem))]
    omega
  · rw [if_pos (by omega), if_neg hpe]
    rw [Finset.card_insert_of_not_mem
      (fun hmem => h2 (Finset.mem_of_mem_filter _ hmem))]
    omega

/-! ### The sign equals minus one to the even-orbit count -/

theorem neg_one_pow_parity (a b : ℕ) (h : a % 2 = b % 2) :
    ((-1 : ℤˣ)) ^ a = (-1) ^ b := by
  rcases Nat.even_or_odd a with ha | ha
  · have hb : Even b := by
      rw [Nat.even_iff] at ha ⊢
      omega
    rw [Even.neg_one_pow ha, Even.neg_one_pow hb]
  · have hb : Odd b := by
      rw [Nat.odd_iff] at ha ⊢
      omega
    rw [Odd.neg_one_pow ha, Odd.neg_one_pow hb]

theorem sign_eq_pow_evenOrbitCount_aux {n : ℕ} :
    ∀ (N : ℕ) (σ : Equiv.Perm (Fin n)), σ.support.card ≤ N →
    Equiv.Perm.sign σ = (-1 : ℤˣ) ^ evenOrbitCount σ := by
  intro N
  induction N with
  | zero =>
    intro σ hσ
    have hsupp : σ.support = ∅ := Finset.card_eq_zero.mp (by omega)
    have h1 : σ = 1 := Equiv.Perm.support_eq_empty_iff.mp hsupp
    subst h1
    rw [evenOrbitCount_one]
    simp
  | succ N ih =>
    intro σ hσ
    by_cases h1 : σ = 1
    · subst h1
      rw [evenOrbitCount_one]
      simp
    · have hex : ∃ a, σ a ≠ a := by
        by_contra hno
        push_neg at hno
        exact h1 (Equiv.ext hno)
      obtain ⟨a, ha⟩ := hex
      have hlt := Equiv.Perm.card_support_swap_mul ha
      have hih := ih (Equiv.swap a (σ a) * σ) (by omega)
      have hcount := evenOrbitCount_swapMul σ a ha
      have hσeq : σ = Equiv.swap a (σ a) * (Equiv.swap a (σ a) * σ) := by
        rw [← mul_assoc, Equiv.swap_mul_self, one_mul]
      have hend : Equiv.Perm.sign σ =
          -1 * (-1 : ℤˣ) ^ evenOrbitCount (Equiv.swap a (σ a) * σ) := by
        conv_lhs => rw [hσeq]
        rw [Equiv.Perm.sign_mul, hih, Equiv.Perm.sign_swap (Ne.symm ha)]
      rw [hend]
      have hpar : (evenOrbitCount (Equiv.swap a (σ a) * σ) + 1) % 2 =
          evenOrbitCount σ % 2 := by omega
      calc -1 * (-1 : ℤˣ) ^ evenOrbitCount (Equiv.swap a (σ a) * σ)
          = (-1 : ℤˣ) ^ (evenOrbitCount (Equiv.swap a (σ a) * σ) + 1) := by
            rw [pow_succ]
            exact mul_comm _ _
        _ = (-1 : ℤˣ) ^ evenOrbitCount σ := neg_one_pow_parity _ _ hpar

/-- The sign of a permutation of Fin n is minus one to the number of its
even-sized orbits. -/
theorem sign_eq_pow_evenOrbitCount {n : ℕ} (σ : Equiv.Perm (Fin n)) :
    Equiv.Perm.sign σ = (-1 : ℤˣ) ^ evenOrbitCount σ :=
  sign_eq_pow_evenOrbitCount_aux σ.support.card σ (le_refl _)

/-- Two permutations whose signs differ have even-orbit counts of
different parity. -/
theorem evenOrbitCount_parity_ne_of_sign_ne {n : ℕ}
    (σ τ : Equiv.Perm (Fin n))
    (h : Equiv.Perm.sign σ = -Equiv.Perm.sign τ) :
    evenOrbitCount σ % 2 ≠ evenOrbitCount τ % 2 := by
  intro heq
  have h1 := sign_eq_pow_evenOrbitCount σ
  have h2 := sign_eq_pow_evenOrbitCount τ
  have h3 : Equiv.Perm.sign σ = Equiv.Perm.sign τ := by
    rw [h1, h2]
    exact neg_one_pow_parity _ _ heq
  rw [h3] at h
  rcases Int.units_eq_one_or (Equiv.Perm.sign τ) with he | he
  · rw [he] at h
    exact absurd h (by decide)
  · rw [he] at h
    exact absurd h (by decide)

/-! ### The cycle walk of permParity computes the orbit partition -/

theorem mem_pOrbit_iff_lt {n : ℕ} {σ : Equiv.Perm (Fin n)} {x y : Fin n} :
    y ∈ pOrbit σ x ↔ ∃ s, s < pPeriod σ x ∧ (σ ^ s) x = y := by
  rw [pOrbit, Finset.mem_image]
  constructor
  · rintro ⟨s, hs, he⟩
    exact ⟨s, Finset.mem_range.mp hs, he⟩
  · rintro ⟨s, hs, he⟩
    exact ⟨s, Finset.mem_range.mpr hs, he⟩

theorem mem_pOrbit_comm {n : ℕ} {σ : Equiv.Perm (Fin n)} {x z : Fin n}
    (h : x ∈ pOrbit σ z) : z ∈ pOrbit σ x := by
  rw [pOrbit_eq_of_mem h]
  exact mem_pOrbit_self σ z

theorem pPeriod_le_card {n : ℕ} (σ : Equiv.Perm (Fin n)) (x : Fin n) :
    pPeriod σ x ≤ n := by
  have h1 := pOrbit_card σ x
  have h2 : (pOrbit σ x).card ≤ Fintype.card (Fin n) :=
    Finset.card_le_univ _
  rw [Fintype.card_fin] at h2
  omega

theorem getD_set_bool (vis : List Bool) (j k : Nat) (hk : k < vis.length)
    (b : Bool) :
    (vis.set j b).getD k false = if j = k then b else vis.getD k false := by
  rw [List.getD_eq_getElem _ _ (by rw [List.length_set]; exact hk)]
  rw [List.getElem_set]
  by_cases hjk : j = k
  · rw [if_pos hjk, if_pos hjk]
  · rw [if_neg hjk, if_neg hjk, List.getD_eq_getElem _ _ hk]

/-- The set of cells the outer loop has visited after the starts below i:
the union of their orbits. -/
def bigD {n : ℕ} (σ : Equiv.Perm (Fin n)) (i : ℕ) : Finset (Fin n) :=
  (Finset.univ.filter (fun x : Fin n => x.val < i)).biUnion (pOrbit σ)

/-- The number of even-sized orbits discovered by the starts below i. -/
def discCount {n : ℕ} (σ : Equiv.Perm (Fin n)) (i : ℕ) : ℕ :=
  (((orbitsOf σ).filter (fun o => ∃ y ∈ o, y.val < i)).filter
    (fun o => o.card % 2 = 0)).card

theorem mem_bigD_iff {n : ℕ} {σ : Equiv.Perm (Fin n)} {i : ℕ} {x : Fin n} :
    x ∈ bigD σ i ↔ ∃ z : Fin n, z.val < i ∧ x ∈ pOrbit σ z := by
  rw [bigD, Finset.mem_biUnion]
  constructor
  · rintro ⟨z, hz, hx⟩
    exact ⟨z, (Finset.mem_filter.mp hz).2, hx⟩
  · rintro ⟨z, hz, hx⟩
    exact ⟨z, Finset.mem_filter.mpr ⟨Finset.mem_univ z, hz⟩, hx⟩

theorem bigD_closed {n : ℕ} (σ : Equiv.Perm (Fin n)) (i : ℕ) :
    ∀ y ∈ bigD σ i, σ y ∈ bigD σ i := by
  intro y hy
  obtain ⟨z, hz, hmem⟩ := mem_bigD_iff.mp hy
  exact mem_bigD_iff.mpr ⟨z, hz, apply_mem_pOrbit hmem⟩

theorem pOrbit_subset_bigD {n : ℕ} {σ : Equiv.Perm (Fin n)} {i : ℕ}
    {z : Fin n} (hz : z.val < i) : pOrbit σ z ⊆ bigD σ i :=
  fun _ hy => mem_bigD_iff.mpr ⟨z, hz, hy⟩

theorem bigD_zero {n : ℕ} (σ : Equiv.Perm (Fin n)) : bigD σ 0 = ∅ := by
  rw [Finset.eq_empty_iff_forall_not_mem]
  intro x hx
  obtain ⟨z, hz, _⟩ := mem_bigD_iff.mp hx
  omega

theorem discCount_zero {n : ℕ} (σ : Equiv.Perm (Fin n)) :
    discCount σ 0 = 0 := by
  rw [discCount, Finset.card_eq_zero, Finset.filter_eq_empty_iff]
  intro o ho
  have := Finset.mem_filter.mp ho
  obtain ⟨y, _, hy⟩ := this.2
  omega

/-- The inner while loop of permParity: started on an unvisited cell whose
orbit avoids the visited set, it marks exactly that orbit and returns its
size. -/
theorem walk_spec (l : List Nat) (n : ℕ) (hl : l.length = n)
    (σ : Equiv.Perm (Fin n))
    (hb : ∀ (k : ℕ) (hk : k < n), l.getD k 0 = (σ ⟨k, hk⟩).val)
    (x : Fin n) (V0 : Finset (Fin n))
    (hcl : ∀ y ∈ V0, σ y ∈ V0) (hx : x ∉ V0) :
    ∀ (fuel t : ℕ) (vis : List Bool), vis.length = n →
      t ≤ pPeriod σ x → pPeriod σ x ≤ t + fuel →
      (∀ m : Fin n, vis.getD m.val false = true ↔
        (m ∈ V0 ∨ ∃ s, s < t ∧ (σ ^ s) x = m)) →
      (permParityWalk l fuel vis ((σ ^ t) x).val t).2 = pPeriod σ x ∧
      ((permParityWalk l fuel vis ((σ ^ t) x).val t).1).length = n ∧
      (∀ m : Fin n,
        ((permParityWalk l fuel vis ((σ ^ t) x).val t).1).getD m.val false
          = true ↔ (m ∈ V0 ∨ m ∈ pOrbit σ x)) := by
  have hcl' : ∀ (k : ℕ) (y : Fin n), y ∈ V0 → (σ ^ k) y ∈ V0 := by
    intro k
    induction k with
    | zero => intro y hy; simpa using hy
    | succ k ihk =>
      intro y hy
      rw [pow_succ', Equiv.Perm.mul_apply]
      exact hcl _ (ihk y hy)
  intro fuel
  induction fuel with
  | zero =>
    intro t vis hvlen ht hft hinv
    have hteq : t = pPeriod σ x := by omega
    subst hteq
    refine ⟨rfl, hvlen, ?_⟩
    intro m
    show vis.getD m.val false = true ↔ _
    rw [hinv m, mem_pOrbit_iff_lt]
  | succ f ih =>
    intro t vis hvlen ht hft hinv
    by_cases hteq : t = pPeriod σ x
    · subst hteq
      have hvis : vis.getD ((σ ^ pPeriod σ x) x).val false = true := by
        rw [pPeriod_fix]
        rw [hinv x]
        right
        exact ⟨0, pPeriod_pos σ x, by rw [pow_zero]; rfl⟩
      rw [permParityWalk, if_pos hvis]
      refine ⟨rfl, hvlen, ?_⟩
      intro m
      show vis.getD m.val false = true ↔ _
      rw [hinv m, mem_pOrbit_iff_lt]
    · have htlt : t < pPeriod σ x := by omega
      have hnotvis : ¬ (vis.getD ((σ ^ t) x).val false = true) := by
        rw [hinv ((σ ^ t) x)]
        rintro (hV | ⟨s, hs, hse⟩)
        · have hback : (σ ^ (pPeriod σ x - t)) ((σ ^ t) x) ∈ V0 :=
            hcl' _ _ hV
          rw [← Equiv.Perm.mul_apply, ← pow_add,
            show pPeriod σ x - t + t = pPeriod σ x from by omega,
            pPeriod_fix] at hback
          exact hx hback
        · have := pow_inj_lt_period σ x (by omega) htlt hse
          omega
      have hjlt : ((σ ^ t) x).val < n := ((σ ^ t) x).isLt
      have hnext : l.getD ((σ ^ t) x).val 0 = ((σ ^ (t + 1)) x).val := by
        rw [hb _ hjlt]
        have hfin : (⟨((σ ^ t) x).val, hjlt⟩ : Fin n) = (σ ^ t) x :=
          Fin.eta _ _
        rw [hfin, ← Equiv.Perm.mul_apply, ← pow_succ']
      rw [permParityWalk, if_neg hnotvis, hnext]
      apply ih (t + 1) (vis.set ((σ ^ t) x).val true)
      · rw [List.length_set]
        exact hvlen
      · omega
      · omega
      · intro m
        rw [getD_set_bool vis _ _ (by omega) true]
        by_cases hjm : ((σ ^ t) x).val = m.val
        · rw [if_pos hjm]
          have hm : (σ ^ t) x = m := Fin.ext hjm
          constructor
          · intro _
            right
            exact ⟨t, by omega, hm⟩
          · intro _
            rfl
        · rw [if_neg hjm]
          rw [hinv m]
          constructor
          · rintro (hV | ⟨s, hs, hse⟩)
            · exact Or.inl hV
            · exact Or.inr ⟨s, by omega, hse⟩
          · rintro (hV | ⟨s, hs, hse⟩)
            · exact Or.inl hV
            · refine Or.inr ⟨s, ?_, hse⟩
              rcases Nat.lt_or_ge s t with hst | hst
              · exact hst
              · exfalso
                have hseq : s = t := by omega
                subst hseq
                exact hjm (congrArg Fin.val hse)

/-! ### The outer loop of permParity -/

theorem bigD_succ {n : ℕ} (σ : Equiv.Perm (Fin n)) (i : ℕ) (hi : i < n) :
    bigD σ (i + 1) = bigD σ i ∪ pOrbit σ ⟨i, hi⟩ := by
  ext y
  rw [Finset.mem_union, mem_bigD_iff, mem_bigD_iff]
  constructor
  · rintro ⟨z, hz, hmem⟩
    rcases Nat.lt_or_ge z.val i with h | h
    · exact Or.inl ⟨z, h, hmem⟩
    · have hzx : z = ⟨i, hi⟩ := Fin.ext (show z.val = i by omega)
      subst hzx
      exact Or.inr hmem
  · rintro (⟨z, hz, hmem⟩ | hmem)
    · exact ⟨z, by omega, hmem⟩
    · exact ⟨⟨i, hi⟩, Nat.lt_succ_self i, hmem⟩

theorem bigD_succ_of_visited {n : ℕ} (σ : Equiv.Perm (Fin n)) (i : ℕ)
    (hi : i < n) (hx : (⟨i, hi⟩ : Fin n) ∈ bigD σ i) :
    bigD σ (i + 1) = bigD σ i := by
  rw [bigD_succ σ i hi]
  apply Finset.union_eq_left.mpr
  obtain ⟨z, hz, hmem⟩ := mem_bigD_iff.mp hx
  rw [pOrbit_eq_of_mem hmem]
  exact pOrbit_subset_bigD hz

theorem discovered_succ_visited {n : ℕ} (σ : Equiv.Perm (Fin n)) (i : ℕ)
    (hi : i < n) (hx : (⟨i, hi⟩ : Fin n) ∈ bigD σ i) :
    (orbitsOf σ).filter (fun o => ∃ y ∈ o, y.val < i + 1) =
      (orbitsOf σ).filter (fun o => ∃ y ∈ o, y.val < i) := by
  ext o
  simp only [Finset.mem_filter]
  constructor
  · rintro ⟨ho, y, hy, hlt⟩
    refine ⟨ho, ?_⟩
    rcases Nat.lt_or_ge y.val i with h | h
    · exact ⟨y, hy, h⟩
    · have hyx : y = ⟨i, hi⟩ := Fin.ext (show y.val = i by omega)
      subst hyx
      rw [orbitsOf, Finset.mem_image] at ho
      obtain ⟨w, _, hw⟩ := ho
      obtain ⟨z, hz, hmem⟩ := mem_bigD_iff.mp hx
      subst hw
      have h1 : pOrbit σ (⟨i, hi⟩ : Fin n) = pOrbit σ w :=
        pOrbit_eq_of_mem hy
      have h2 : pOrbit σ (⟨i, hi⟩ : Fin n) = pOrbit σ z :=
        pOrbit_eq_of_mem hmem
      refine ⟨z, ?_, hz⟩
      rw [← h1, h2]
      exact mem_pOrbit_self σ z
  · rintro ⟨ho, y, hy, hlt⟩
    exact ⟨ho, y, hy, by omega⟩

theorem discovered_succ_new {n : ℕ} (σ : Equiv.Perm (Fin n)) (i : ℕ)
    (hi : i < n) (hx : (⟨i, hi⟩ : Fin n) ∉ bigD σ i) :
    (orbitsOf σ).filter (fun o => ∃ y ∈ o, y.val < i + 1) =
      insert (pOrbit σ ⟨i, hi⟩)
        ((orbitsOf σ).filter (fun o => ∃ y ∈ o, y.val < i)) := by
  ext o
  simp only [Finset.mem_filter, Finset.mem_insert]
  constructor
  · rintro ⟨ho, y, hy, hlt⟩
    rcases Nat.lt_or_ge y.val i with h | h
    · exact Or.inr ⟨ho, y, hy, h⟩
    · have hyx : y = ⟨i, hi⟩ := Fin.ext (show y.val = i by omega)
      subst hyx
      left
      rw [orbitsOf, Finset.mem_image] at ho
      obtain ⟨w, _, hw⟩ := ho
      subst hw
      exact (pOrbit_eq_of_mem hy).symm
  · rintro (rfl | ⟨ho, y, hy, hlt⟩)
    · refine ⟨?_, ⟨i, hi⟩, mem_pOrbit_self σ _, Nat.lt_succ_self i⟩
      rw [orbitsOf, Finset.mem_image]
      exact ⟨_, Finset.mem_univ _, rfl⟩
    · exact ⟨ho, y, hy, by omega⟩

theorem pOrbit_not_discovered {n : ℕ} (σ : Equiv.Perm (Fin n)) (i : ℕ)
    (hi : i < n) (hx : (⟨i, hi⟩ : Fin n) ∉ bigD σ i) :
    pOrbit σ ⟨i, hi⟩ ∉
      (orbitsOf σ).filter (fun o => ∃ y ∈ o, y.val < i) := by
  intro hmem
  obtain ⟨-, y, hy, hlt⟩ := Finset.mem_filter.mp hmem
  exact hx (pOrbit_subset_bigD hlt (mem_pOrbit_comm hy))

theorem discCount_succ_visited {n : ℕ} (σ : Equiv.Perm (Fin n)) (i : ℕ)
    (hi : i < n) (hx : (⟨i, hi⟩ : Fin n) ∈ bigD σ i) :
    discCount σ (i + 1) = discCount σ i := by
  rw [discCount, discCount, discovered_succ_visited σ i hi hx]

theorem discCount_succ_new {n : ℕ} (σ : Equiv.Perm (Fin n)) (i : ℕ)
    (hi : i < n) (hx : (⟨i, hi⟩ : Fin n) ∉ bigD σ i) :
    discCount σ (i + 1) =
      if (pOrbit σ ⟨i, hi⟩).card % 2 = 0 then discCount σ i + 1
      else discCount σ i := by
  rw [discCount, discCount, discovered_succ_new σ i hi hx,
    Finset.filter_insert]
  by_cases hc : (pOrbit σ (⟨i, hi⟩ : Fin n)).card % 2 = 0
  · rw [if_pos hc, if_pos hc, Finset.card_insert_of_not_mem
      (fun h => pOrbit_not_discovered σ i hi hx
        (Finset.mem_of_mem_filter _ h))]
  · rw [if_neg hc, if_neg hc]

/-- The fold the outer loop of permParity performs, stopped after the
first i start indices. -/
def ppFold (l : List Nat) (i : Nat) : List Bool × Nat :=
  (List.range i).foldl (fun st i =>
      if st.1.getD i false then st
      else
        let w := permParityWalk l l.length st.1 i 0
        (w.1, if w.2 % 2 = 0 then st.2 + 1 else st.2))
    (List.replicate l.length false, 0)

theorem permParity_eq_ppFold (l : List Nat) :
    permParity l = (ppFold l l.length).2 % 2 := rfl

theorem loop_spec (l : List Nat) (σ : Equiv.Perm (Fin l.length))
    (hb : ∀ (k : ℕ) (hk : k < l.length), l.getD k 0 = (σ ⟨k, hk⟩).val) :
    ∀ i, i ≤ l.length →
      ((ppFold l i).1.length = l.length) ∧
      (∀ m : Fin l.length,
        (ppFold l i).1.getD m.val false = true ↔ m ∈ bigD σ i) ∧
      (ppFold l i).2 = discCount σ i := by
  intro i
  induction i with
  | zero =>
    intro _
    have hrep : ∀ j, (List.replicate l.length false).getD j false = false := by
      intro j
      rw [List.getD_eq_getElem?_getD, List.getElem?_replicate]
      split <;> rfl
    refine ⟨List.length_replicate _ _, ?_, (discCount_zero σ).symm⟩
    intro m
    rw [show (ppFold l 0).1 = List.replicate l.length false from rfl]
    rw [hrep, bigD_zero]
    simp
  | succ i ih =>
    intro hi1
    have hi : i < l.length := by omega
    obtain ⟨hlen, hinv, hcnt⟩ := ih (by omega)
    have hstep : ppFold l (i + 1) =
        (if (ppFold l i).1.getD i false then ppFold l i
         else
           let w := permParityWalk l l.length (ppFold l i).1 i 0
           (w.1, if w.2 % 2 = 0 then (ppFold l i).2 + 1
             else (ppFold l i).2)) := by
      rw [ppFold, List.range_succ, List.foldl_append]
      rfl
    by_cases hvis : (ppFold l i).1.getD i false = true
    · have hxmem : (⟨i, hi⟩ : Fin l.length) ∈ bigD σ i := (hinv _).mp hvis
      rw [hstep, if_pos hvis]
      refine ⟨hlen, ?_, ?_⟩
      · intro m
        rw [hinv m, bigD_succ_of_visited σ i hi hxmem]
      · rw [hcnt, discCount_succ_visited σ i hi hxmem]
    · have hxnot : (⟨i, hi⟩ : Fin l.length) ∉ bigD σ i :=
        fun h => hvis ((hinv _).mpr h)
      have hinv0 : ∀ m : Fin l.length,
          (ppFold l i).1.getD m.val false = true ↔
          (m ∈ bigD σ i ∨ ∃ s, s < 0 ∧ (σ ^ s) (⟨i, hi⟩ : Fin l.length) = m) := by
        intro m
        rw [hinv m]
        constructor
        · exact Or.inl
        · rintro (h | ⟨s, hs, _⟩)
          · exact h
          · omega
      have hwalk := walk_spec l l.length rfl σ hb ⟨i, hi⟩ (bigD σ i)
        (bigD_closed σ i) hxnot l.length 0 (ppFold l i).1 hlen
        (by omega) (by have := pPeriod_le_card σ (⟨i, hi⟩ : Fin l.length); omega)
        hinv0
      have hx0 : ((σ ^ (0 : ℕ)) (⟨i, hi⟩ : Fin l.length)).val = i := by
        rw [pow_zero]
        rfl
      rw [hx0] at hwalk
      rw [hstep, if_neg hvis]
      refine ⟨hwalk.2.1, ?_, ?_⟩
      · intro m
        show (permParityWalk l l.length (ppFold l i).1 i 0).1.getD m.val false
            = true ↔ _
        rw [hwalk.2.2 m, bigD_succ σ i hi, Finset.mem_union]
      · show (if (permParityWalk l l.length (ppFold l i).1 i 0).2 % 2 = 0
            then (ppFold l i).2 + 1 else (ppFold l i).2) = _
        rw [hwalk.1, hcnt, discCount_succ_new σ i hi hxnot, pOrbit_card]

/-- permParity counts the even-sized orbits of the permutation the list
tabulates, mod 2. -/
theorem permParity_eq_evenOrbitCount (l : List Nat)
    (σ : Equiv.Perm (Fin l.length))
    (hb : ∀ (k : ℕ) (hk : k < l.length), l.getD k 0 = (σ ⟨k, hk⟩).val) :
    permParity l = evenOrbitCount σ % 2 := by
  have h := loop_spec l σ hb l.length (le_refl _)
  have hall : (orbitsOf σ).filter (fun o => ∃ y ∈ o, y.val < l.length) =
      orbitsOf σ := by
    apply Finset.filter_true_of_mem
    intro o ho
    rw [orbitsOf, Finset.mem_image] at ho
    obtain ⟨z, _, hz⟩ := ho
    exact ⟨z, hz ▸ mem_pOrbit_self σ z, z.isLt⟩
  have hdisc : discCount σ l.length = evenOrbitCount σ := by
    rw [discCount, hall, evenOrbitCount]
  rw [permParity_eq_ppFold, h.2.2, hdisc]

theorem permParity_eq_evenOrbitCount_of_len (l : List Nat) (n : ℕ)
    (hl : l.length = n) (σ : Equiv.Perm (Fin n))
    (hb : ∀ (k : ℕ) (hk : k < n), l.getD k 0 = (σ ⟨k, hk⟩).val) :
    permParity l = evenOrbitCount σ % 2 := by
  subst hl
  exact permParity_eq_evenOrbitCount l σ hb

/-! ### The permutation a list of distinct indices tabulates -/

/-- The permutation of Fin n a list holding each of 0 … n-1 once
tabulates: position k maps to the entry at k. -/
def permOfList (l : List Nat) (hp : l.Perm (List.range l.length)) :
    Equiv.Perm (Fin l.length) where
  toFun x := ⟨l.getD x.val 0, by
    have hx : l.getD x.val 0 ∈ l := by
      rw [List.getD_eq_getElem l 0 x.isLt]
      exact List.getElem_mem _
    exact List.mem_range.mp (hp.mem_iff.mp hx)⟩
  invFun y := ⟨l.indexOf y.val, by
    have hy : (y : Nat) ∈ l := hp.mem_iff.mpr (List.mem_range.mpr y.isLt)
    exact List.indexOf_lt_length.mpr hy⟩
  left_inv := by
    intro x
    have hnd : l.Nodup := hp.nodup_iff.mpr (List.nodup_range _)
    apply Fin.ext
    show l.indexOf (l.getD x.val 0) = x.val
    rw [List.getD_eq_getElem l 0 x.isLt]
    exact List.indexOf_getElem hnd x.val x.isLt
  right_inv := by
    intro y
    have hy : (y : Nat) ∈ l := hp.mem_iff.mpr (List.mem_range.mpr y.isLt)
    have hlt : l.indexOf y.val < l.length := List.indexOf_lt_length.mpr hy
    apply Fin.ext
    show l.getD (l.indexOf y.val) 0 = y.val
    rw [List.getD_eq_getElem l 0 hlt]
    exact List.getElem_indexOf hlt

/-- A total version: the identity when the list is not a permutation of
the range of its length. -/
def tabulatedPerm (l : List Nat) : Equiv.Perm (Fin l.length) :=
  if hp : l.Perm (List.range l.length) then permOfList l hp
  else Equiv.refl _

theorem tabulatedPerm_apply (l : List Nat)
    (hp : l.Perm (List.range l.length)) (k : ℕ) (hk : k < l.length) :
    l.getD k 0 = ((tabulatedPerm l) ⟨k, hk⟩).val := by
  rw [tabulatedPerm, dif_pos hp]
  rfl

theorem permParity_eq_evenOrbitCount_tab (l : List Nat)
    (hp : l.Perm (List.range l.length)) :
    permParity l = evenOrbitCount (tabulatedPerm l) % 2 :=
  permParity_eq_evenOrbitCount l (tabulatedPerm l)
    (tabulatedPerm_apply l hp)

theorem perm_range_length_of_perm {l : List Nat} {n : ℕ}
    (h : l.Perm (List.range n)) : l.Perm (List.range l.length) := by
  have hlen : l.length = n := by simpa using h.length_eq
  rw [hlen]
  exact h

theorem permParity_lt_two (l : List Nat) : permParity l < 2 := by
  rw [permParity_eq_ppFold]
  exact Nat.mod_lt _ (by omega)

/-! ### Swapping two entries flips the parity -/

theorem getD_set_nat (l : List Nat) (j k : Nat) (hk : k < l.length)
    (v : Nat) :
    (l.set j v).getD k 0 = if k = j then v else l.getD k 0 := by
  rw [List.getD_eq_getElem _ _ (by rw [List.length_set]; exact hk)]
  rw [List.getElem_set]
  by_cases hjk : j = k
  · rw [if_pos hjk, if_pos hjk.symm]
  · rw [if_neg hjk, if_neg (fun h => hjk h.symm),
      List.getD_eq_getElem _ _ hk]

theorem listSwap_getD (l : List Nat) (i j k : Nat) (hi : i < l.length)
    (hj : j < l.length) (hk : k < l.length) :
    (listSwap l i j).getD k 0 =
      if k = i then l.getD j 0
      else if k = j then l.getD i 0
      else l.getD k 0 := by
  show (((l.set i (l.getD j 0)).set j (l.getD i 0)).getD k 0) = _
  rw [getD_set_nat _ _ _ (by rw [List.length_set]; exact hk),
    getD_set_nat _ _ _ hk]
  by_cases h1 : k = i <;> by_cases h2 : k = j
  · conv_lhs => rw [if_pos h2]
    conv_rhs => rw [if_pos h1]
    rw [h1.symm.trans h2]
  · conv_lhs => rw [if_neg h2, if_pos h1]
    conv_rhs => rw [if_pos h1]
  · conv_lhs => rw [if_pos h2]
    conv_rhs => rw [if_neg h1, if_pos h2]
  · conv_lhs => rw [if_neg h2, if_neg h1]
    conv_rhs => rw [if_neg h1, if_neg h2]

theorem listSwap_tabulates (l : List Nat)
    (hp : l.Perm (List.range l.length)) (i j : Nat) (hi : i < l.length)
    (hj : j < l.length) (k : ℕ) (hk : k < (listSwap l i j).length) :
    (listSwap l i j).getD k 0 =
      (((permOfList l hp) *
        Equiv.swap (⟨i, hi⟩ : Fin l.length) ⟨j, hj⟩) ⟨k, by
          rw [listSwap_length] at hk
          exact hk⟩).val := by
  have hk' : k < l.length := by rw [listSwap_length] at hk; exact hk
  rw [listSwap_getD l i j k hi hj hk', Equiv.Perm.mul_apply,
    Equiv.swap_apply_def]
  by_cases h1 : k = i
  · rw [if_pos h1, if_pos (Fin.ext h1 : (⟨k, _⟩ : Fin l.length) = ⟨i, hi⟩)]
    rfl
  · rw [if_neg h1,
      if_neg (fun h => h1 (congrArg Fin.val h) :
        ¬ (⟨k, _⟩ : Fin l.length) = ⟨i, hi⟩)]
    by_cases h2 : k = j
    · rw [if_pos h2,
        if_pos (Fin.ext h2 : (⟨k, _⟩ : Fin l.length) = ⟨j, hj⟩)]
      rfl
    · rw [if_neg h2,
        if_neg (fun h => h2 (congrArg Fin.val h) :
          ¬ (⟨k, _⟩ : Fin l.length) = ⟨j, hj⟩)]
      rfl

theorem permParity_listSwap_ne (l : List Nat)
    (hp : l.Perm (List.range l.length)) (i j : Nat) (hi : i < l.length)
    (hj : j < l.length) (hij : i ≠ j) :
    permParity (listSwap l i j) ≠ permParity l := by
  have h1 : permParity l = evenOrbitCount (permOfList l hp) % 2 :=
    permParity_eq_evenOrbitCount l (permOfList l hp) (fun k hk => rfl)
  have hlen : (listSwap l i j).length = l.length := listSwap_length l i j
  have h2 : permParity (listSwap l i j) =
      evenOrbitCount ((permOfList l hp) *
        Equiv.swap (⟨i, hi⟩ : Fin l.length) ⟨j, hj⟩) % 2 := by
    refine permParity_eq_evenOrbitCount_of_len (listSwap l i j) l.length
      hlen _ ?_
    intro k hk
    exact listSwap_tabulates l hp i j hi hj k (by rw [hlen]; exact hk)
  have hxy : (⟨i, hi⟩ : Fin l.length) ≠ ⟨j, hj⟩ :=
    fun h => hij (congrArg Fin.val h)
  have hsign : Equiv.Perm.sign ((permOfList l hp) *
      Equiv.swap (⟨i, hi⟩ : Fin l.length) ⟨j, hj⟩) =
      -Equiv.Perm.sign (permOfList l hp) := by
    rw [Equiv.Perm.sign_mul, Equiv.Perm.sign_swap hxy, mul_neg_one]
  have hne := evenOrbitCount_parity_ne_of_sign_ne _ _ hsign
  rw [h1, h2]
  exact hne

/-- C2: for every snowflake, the cube state snowflakeToRubiksCube returns
satisfies all three reachability invariants: the corner orientations sum
to 0 mod 3, the edge orientations sum to 0 mod 2, and the parities of the
corner and edge permutations sum even — where the parity the source's
permParity computes is exactly the number of even-length cycles of the
permutation the list tabulates, taken mod 2. -/
theorem claim_C2 (sf : Snowflake) :
    (snowflakeToRubiksCube sf).co.sum % 3 = 0 ∧
    (snowflakeToRubiksCube sf).eo.sum % 2 = 0 ∧
    (permParity (snowflakeToRubiksCube sf).corners +
      permParity (snowflakeToRubiksCube sf).edges) % 2 = 0 ∧
    permParity (snowflakeToRubiksCube sf).corners =
      evenOrbitCount (tabulatedPerm (snowflakeToRubiksCube sf).corners) % 2 ∧
    permParity (snowflakeToRubiksCube sf).edges =
      evenOrbitCount (tabulatedPerm (snowflakeToRubiksCube sf).edges) % 2 := by
  refine ⟨?_, ?_, ?_, ?_, ?_⟩
  · rw [cube_co_eq, List.sum_append, List.sum_cons, List.sum_nil]
    omega
  · rw [cube_eo_eq, List.sum_append, List.sum_cons, List.sum_nil]
    omega
  · rw [cube_corners_eq, cube_edges_eq]
    unfold cubeEdges
    by_cases hpar : (permParity (cubeCorners sf).1 +
        permParity (cubeEdgesPre sf).1) % 2 ≠ 0
    · rw [if_pos hpar]
      have hlen : ((cubeEdgesPre sf).1).length = 12 := by
        simpa using (cubeEdgesPre_perm sf).length_eq
      have hne := permParity_listSwap_ne (cubeEdgesPre sf).1
        (perm_range_length_of_perm (cubeEdgesPre_perm sf)) 10 11
        (by omega) (by omega) (by omega)
      have h1 := permParity_lt_two (cubeCorners sf).1
      have h2 := permParity_lt_two (cubeEdgesPre sf).1
      have h3 := permParity_lt_two (listSwap (cubeEdgesPre sf).1 10 11)
      omega
    · rw [if_neg hpar]
      omega
  · rw [cube_corners_eq]
    exact permParity_eq_evenOrbitCount_tab _
      (perm_range_length_of_perm (cubeCorners_perm sf))
  · rw [cube_edges_eq]
    exact permParity_eq_evenOrbitCount_tab _
      (perm_range_length_of_perm (cubeEdges_perm sf))

end IpAnon
